import Mathlib

/-!
A shallow embedding of the string-buffer core of a terminal line editor
(file stringbuf.c): UTF-8/escape scanning, terminal row layout, and the
growable byte buffer with its mutation API, together with theorems about
the core's documented properties.

Bytes are modelled as natural numbers below 256 inside `List Nat`; the C
pointer-plus-length view `(s, len)` becomes a list plus an explicit length.
Out-of-range reads use `List.getD` with default 0 (the C sentinel byte).
Signed sizes (ssize_t) are `Int` exactly where the C code branches on
negativity, and `Nat` elsewhere.  The external Unicode width table
`mk_wcwidth` (wcwidth.c, not part of this core) is a parameter
`mkw : Nat → Int` of every width computation.  The fallible allocator is
modelled by an explicit `allocOk : Bool` outcome on each growth attempt.
-/

set_option linter.unusedVariables false
set_option maxRecDepth 40000
set_option maxHeartbeats 4000000

namespace Stringbuf

/-- A UTF-8 continuation byte, 0x80..0xBF: the C loops continue while
`u >= 0x80 && u <= 0xBF`. -/
def isFollower (b : Nat) : Bool := 0x80 ≤ b && b ≤ 0xBF

/-- Backward scan loop of str_prev_ofs: grow `ofs` while the byte before
`pos - ofs + 1` positions is a continuation byte. -/
def prevOfsLoop (s : List Nat) (pos : Nat) (ofs : Nat) : Nat :=
  if h : ofs < pos then
    if isFollower (s.getD (pos - ofs) 0) then prevOfsLoop s pos (ofs + 1) else ofs
  else ofs
termination_by pos - ofs

/-- Offset (in bytes) of the previous codepoint at `pos` (str_prev_ofs):
0 when `pos = 0`, otherwise one byte plus the run of continuation bytes
scanned backward.  Escape sequences are not recognized backward. -/
def prevOfs (s : List Nat) (pos : Nat) : Nat :=
  if 0 < pos then prevOfsLoop s pos 1 else 0

/-- Parameter/intermediate/terminator scan of skip_csi_esc for CSI and OSC
sequences: parameter bytes 0x30-0x3F (not after an intermediate byte),
intermediate bytes 0x20-0x2F, terminating byte 0x40-0x7E. -/
def skipCsiLoop (s : List Nat) (len : Nat) (intermediate : Bool) (n : Nat) : Option Nat :=
  if h : n < len then
    if 0x30 ≤ s.getD n 0 ∧ s.getD n 0 ≤ 0x3F then
      if intermediate then none else skipCsiLoop s len intermediate (n + 1)
    else if 0x20 ≤ s.getD n 0 ∧ s.getD n 0 ≤ 0x2F then skipCsiLoop s len true (n + 1)
    else if 0x40 ≤ s.getD n 0 ∧ s.getD n 0 ≤ 0x7E then some (n + 1)
    else none
  else none
termination_by len - n

/-- skip_csi_esc: recognize a complete ANSI escape sequence at the start of
`s` (within `len` bytes): ESC `[` or ESC `]` followed by the CSI/OSC grammar,
or any other two-byte single-character escape.  Returns the sequence length
on success. -/
def skip_csi_esc (s : List Nat) (len : Nat) : Option Nat :=
  if len < 2 then none
  else if s.getD 0 0 ≠ 0x1B then none
  else if s.getD 1 0 = 0x5B ∨ s.getD 1 0 = 0x5D then skipCsiLoop s len false 2
  else some 2

/-- Forward scan loop of str_next_ofs: grow `ofs` over continuation bytes
bounded by `len`. -/
def nextOfsLoop (s : List Nat) (len pos : Nat) (ofs : Nat) : Nat :=
  if h : pos + ofs < len then
    if isFollower (s.getD (pos + ofs) 0) then nextOfsLoop s len pos (ofs + 1) else ofs
  else ofs
termination_by len - (pos + ofs)

/-- Offset (in bytes) of the next display unit at `pos` (str_next_ofs):
0 at the end of the range, the full escape length when an ANSI escape starts
at `pos`, otherwise one byte plus the following continuation bytes. -/
def nextOfs (s : List Nat) (len pos : Nat) : Nat :=
  if pos < len then
    match skip_csi_esc (s.drop pos) (len - pos) with
    | some esclen => esclen
    | none => nextOfsLoop s len pos 1
  else 0

/-- utf8_char_width: display width of the single UTF-8 sequence at the head
of `s` (`n` bytes available), classifying by the lead byte and consulting
the external width table `mkw` for multi-byte codepoints. -/
def utf8_char_width (mkw : Nat → Int) (s : List Nat) (n : Nat) : Int :=
  if n = 0 then 0
  else
    let b := s.getD 0 0
    if b < 0x20 then 0
    else if b ≤ 0x7F then 1
    else if b ≤ 0xC1 then 1
    else if b ≤ 0xDF ∧ 2 ≤ n then mkw (((b &&& 0x1F) <<< 6) ||| (s.getD 1 0 &&& 0x3F))
    else if b ≤ 0xEF ∧ 3 ≤ n then
      mkw (((b &&& 0x0F) <<< 12) ||| ((s.getD 1 0 &&& 0x3F) <<< 6) ||| (s.getD 2 0 &&& 0x3F))
    else if b ≤ 0xF4 ∧ 4 ≤ n then
      mkw (((b &&& 0x07) <<< 18) ||| ((s.getD 1 0 &&& 0x3F) <<< 12) |||
           ((s.getD 2 0 &&& 0x3F) <<< 6) ||| (s.getD 3 0 &&& 0x3F))
    else 1

/-- char_column_width: width 0 for control bytes (and for the heads of CSI
escape sequences), otherwise the UTF-8 width (non-Windows branch). -/
def char_column_width (mkw : Nat → Int) (s : List Nat) (n : Nat) : Int :=
  if n = 0 then 0
  else if s.getD 0 0 < 0x20 then 0
  else utf8_char_width mkw s n

/-- str_next_ofs with its width out-parameter: byte length and display width
of the display unit at `pos`. -/
def str_next_ofs (mkw : Nat → Int) (s : List Nat) (len pos : Nat) : Nat × Int :=
  let ofs := nextOfs s len pos
  (ofs, char_column_width mkw (s.drop pos) ofs)

/-- str_prev_ofs with its width out-parameter: byte length and display width
of the codepoint ending at `pos`. -/
def str_prev_ofs (mkw : Nat → Int) (s : List Nat) (pos : Nat) : Nat × Int :=
  let ofs := prevOfs s pos
  (ofs, char_column_width mkw (s.drop (pos - ofs)) ofs)

/-- str_limit_to_length scan: first index `i < n` with `s[i] = 0`, else `n`
(clamped below by 0 for a negative `n`). -/
def limitLoop (s : List Nat) (n : Int) (i : Nat) : Nat :=
  if h : (i : Int) < n then
    if s.getD i 0 ≠ 0 then limitLoop s n (i + 1) else i
  else i
termination_by (n - i).toNat

/-- str_limit_to_length: clamp a requested byte count `n` to the data
actually present before the first 0 byte of `s`. -/
def str_limit_to_length (s : List Nat) (n : Int) : Nat := limitLoop s n 0

/-- strlen over the modelled byte string: bytes before the first 0. -/
def rp_strlen (s : List Nat) : Nat := (s.takeWhile (fun b => b != 0)).length

/-- The loop of str_for_each_row.  The row visitor
`f : σ → row → row_start → row_len → is_wrap → Bool × σ` receives the
mutable result state `σ` (the C `void* res`) and returns the stop signal
together with the updated state.  Returns the C return value paired with
the final state. -/
def for_each_row_go {σ : Type} (mkw : Nat → Int) (s : List Nat) (len : Nat)
    (termw promptw cpromptw : Int) (f : σ → Nat → Nat → Nat → Bool → Bool × σ)
    (i rcount rstart : Nat) (rcol : Int) (st : σ) : Nat × σ :=
  if hi : i < len then
    -- next := str_next_ofs(s, len, i, &w)
    if hn : nextOfs s len i = 0 then
      -- the C loop breaks here (scanning always makes progress, so this
      -- branch is unreachable) and falls through to the final row
      if (f st rcount rstart (i - rstart) false).1 then (rcount, (f st rcount rstart (i - rstart) false).2)
      else (rcount + 1, (f st rcount rstart (i - rstart) false).2)
    else
      -- termcol := rcol + w + (rcount == 0 ? promptw : cpromptw) + 1
      if termw ≠ 0 ∧ i ≠ 0 ∧
          termw < rcol + char_column_width mkw (s.drop i) (nextOfs s len i) +
            (if rcount = 0 then promptw else cpromptw) + 1 then
        -- soft wrap row boundary
        if (f st rcount rstart (i - rstart) true).1 then (rcount, (f st rcount rstart (i - rstart) true).2)
        else
          if s.getD i 0 = 10 then
            -- hard break immediately after the wrap, on the same unit
            if (f (f st rcount rstart (i - rstart) true).2 (rcount + 1) i 0 false).1 then
              (rcount + 1, (f (f st rcount rstart (i - rstart) true).2 (rcount + 1) i 0 false).2)
            else
              for_each_row_go mkw s len termw promptw cpromptw f (i + nextOfs s len i)
                (rcount + 2) (i + 1) (char_column_width mkw (s.drop i) (nextOfs s len i))
                (f (f st rcount rstart (i - rstart) true).2 (rcount + 1) i 0 false).2
          else
            for_each_row_go mkw s len termw promptw cpromptw f (i + nextOfs s len i)
              (rcount + 1) i (char_column_width mkw (s.drop i) (nextOfs s len i))
              (f st rcount rstart (i - rstart) true).2
      else
        if s.getD i 0 = 10 then
          -- hard break row boundary
          if (f st rcount rstart (i - rstart) false).1 then (rcount, (f st rcount rstart (i - rstart) false).2)
          else
            for_each_row_go mkw s len termw promptw cpromptw f (i + nextOfs s len i)
              (rcount + 1) (i + 1) (char_column_width mkw (s.drop i) (nextOfs s len i))
              (f st rcount rstart (i - rstart) false).2
        else
          for_each_row_go mkw s len termw promptw cpromptw f (i + nextOfs s len i)
            rcount rstart (rcol + char_column_width mkw (s.drop i) (nextOfs s len i)) st
  else
    -- end of buffer: the current partial row is emitted as the final row
    if (f st rcount rstart (i - rstart) false).1 then (rcount, (f st rcount rstart (i - rstart) false).2)
    else (rcount + 1, (f st rcount rstart (i - rstart) false).2)
termination_by len - i
decreasing_by all_goals omega

/-- str_for_each_row: walk the whole buffer, invoking the visitor once per
terminal row; returns the C return value (row count, or the current row
index on an early stop) with the final visitor state. -/
def str_for_each_row {σ : Type} (mkw : Nat → Int) (s : List Nat) (len : Nat)
    (termw promptw cpromptw : Int) (f : σ → Nat → Nat → Nat → Bool → Bool × σ)
    (st : σ) : Nat × σ :=
  for_each_row_go mkw s len termw promptw cpromptw f 0 0 0 0 st

/-- Total row count of the layout: the walk driven by a visitor that never
stops and records nothing. -/
def row_count (mkw : Nat → Int) (s : List Nat) (len : Nat)
    (termw promptw cpromptw : Int) : Nat :=
  (str_for_each_row (σ := Unit) mkw s len termw promptw cpromptw
    (fun u _ _ _ _ => (false, u)) ()).1

/-- The row decomposition delivered to the visitor: the list of
(row start, row byte length, ended-by-soft-wrap) triples, collected by a
visitor that never stops. -/
def str_rows (mkw : Nat → Int) (s : List Nat) (len : Nat)
    (termw promptw cpromptw : Int) : List (Nat × Nat × Bool) :=
  (str_for_each_row (σ := List (Nat × Nat × Bool)) mkw s len termw promptw cpromptw
    (fun st _ rstart rlen wrap => (false, st ++ [(rstart, rlen, wrap)])) []).2

/-- Tally of a row decomposition: each row's byte length, plus 1 for every
row other than the last that ended without a soft wrap (a hard break
consumed its newline byte); the final row contributes only its length. -/
def rowTally : List (Nat × Nat × Bool) → Nat
  | [] => 0
  | [r] => r.2.1
  | r :: r2 :: rest => r.2.1 + (if r.2.2 then 0 else 1) + rowTally (r2 :: rest)

/-! ### The growable byte buffer -/

/-- Overwrite `d.length` bytes of `l` starting at index `i` (the model of
memmove/memcpy into an allocated block; the source bytes are always taken
from the pre-call lists, matching memmove's as-if-copied semantics). -/
def listWrite (l : List Nat) (i : Nat) (d : List Nat) : List Nat :=
  l.take i ++ d ++ l.drop (i + d.length)

/-- struct stringbuf_s: the allocated block `buf` (of `buflen + 1` bytes
when storage is allocated: one reserved sentinel byte beyond the capacity),
the capacity `buflen`, and the logical length `count`.  The allocator
handle `mem` is not modelled; allocation outcomes are explicit `allocOk`
parameters. -/
structure stringbuf_t where
  buf : List Nat
  buflen : Nat
  count : Nat
deriving DecidableEq

/-- The stringbuf invariant for an allocated buffer: the block holds
`buflen + 1` bytes, the logical length fits the capacity, and the sentinel
byte at index `count` is 0. -/
def sbuf_inv (sb : stringbuf_t) : Prop :=
  sb.buf.length = sb.buflen + 1 ∧ sb.count ≤ sb.buflen ∧ sb.buf.getD sb.count 0 = 0

instance (sb : stringbuf_t) : Decidable (sbuf_inv sb) := by
  unfold sbuf_inv
  exact inferInstance

/-- The content visible to callers: the byte range [0, count). -/
def sbuf_content (sb : stringbuf_t) : List Nat := sb.buf.take sb.count

/-- sbuf_len. -/
def sbuf_len (sb : stringbuf_t) : Nat := sb.count

/-- The capacity chosen by sbuf_ensure_extra when it must reallocate:
double the old capacity (124 from empty), or exactly `count + extra` if
doubling is not enough. -/
def ensureNewlen (sb : stringbuf_t) (extra : Nat) : Nat :=
  if (if sb.buflen = 0 then 124 else 2 * sb.buflen) ≤ sb.count + extra then sb.count + extra
  else (if sb.buflen = 0 then 124 else 2 * sb.buflen)

/-- sbuf_ensure_extra: make room for `extra` more bytes.  `allocOk` is the
outcome of the fallible reallocation; on failure the buffer is returned
unchanged with `false`.  On success the block is reallocated to the new
capacity plus one sentinel byte (fresh bytes modelled as 0) and the bytes
at `count` and at the new capacity are zeroed, as in the C code. -/
def sbuf_ensure_extra (sb : stringbuf_t) (extra : Nat) (allocOk : Bool) : Bool × stringbuf_t :=
  if sb.count + extra ≤ sb.buflen then (true, sb)
  else if allocOk then
    (true,
      { buf := ((sb.buf.take (ensureNewlen sb extra + 1) ++
            List.replicate (ensureNewlen sb extra + 1 - sb.buf.length) 0).set sb.count 0).set
              (ensureNewlen sb extra) 0,
        buflen := ensureNewlen sb extra,
        count := sb.count })
  else (false, sb)

/-- sbuf_insert_at_n: insert the first `n` bytes of `s` (clamped to the
data before the first 0 byte of `s`) at byte position `pos`.  Out-of-range
positions and a clamped count of 0 are no-ops returning `pos` unchanged, as
is a failed reallocation.  Otherwise the tail is shifted right, the bytes
are copied in, the length grows and the sentinel is rewritten; the new
cursor position `pos + n` is returned. -/
def sbuf_insert_at_n (sb : stringbuf_t) (s : List Nat) (n : Int) (pos : Int) (allocOk : Bool) :
    stringbuf_t × Int :=
  if pos < 0 ∨ (sb.count : Int) < pos then (sb, pos)
  else if str_limit_to_length s n = 0 then (sb, pos)
  else if (sbuf_ensure_extra sb (str_limit_to_length s n) allocOk).1 then
    ({ buf := (listWrite
          (listWrite (sbuf_ensure_extra sb (str_limit_to_length s n) allocOk).2.buf
            (pos.toNat + str_limit_to_length s n)
            (((sbuf_ensure_extra sb (str_limit_to_length s n) allocOk).2.buf.drop pos.toNat).take
              ((sbuf_ensure_extra sb (str_limit_to_length s n) allocOk).2.count - pos.toNat)))
          pos.toNat (s.take (str_limit_to_length s n))).set
            ((sbuf_ensure_extra sb (str_limit_to_length s n) allocOk).2.count +
              str_limit_to_length s n) 0,
       buflen := (sbuf_ensure_extra sb (str_limit_to_length s n) allocOk).2.buflen,
       count := (sbuf_ensure_extra sb (str_limit_to_length s n) allocOk).2.count +
         str_limit_to_length s n },
     pos + str_limit_to_length s n)
  else ((sbuf_ensure_extra sb (str_limit_to_length s n) allocOk).2, pos)

/-- sbuf_insert_at: insert the whole string. -/
def sbuf_insert_at (sb : stringbuf_t) (s : List Nat) (pos : Int) (allocOk : Bool) :
    stringbuf_t × Int :=
  sbuf_insert_at_n sb s (rp_strlen s) pos allocOk

/-- sbuf_insert_char_at: insert one byte via a 2-byte local buffer. -/
def sbuf_insert_char_at (sb : stringbuf_t) (c : Nat) (pos : Int) (allocOk : Bool) :
    stringbuf_t × Int :=
  sbuf_insert_at_n sb [c, 0] 1 pos allocOk

/-- The clamp applied by sbuf_delete_at: a span reaching past the logical
length is truncated at the length. -/
def delClamp (sb : stringbuf_t) (pos count : Nat) : Nat :=
  if sb.count < pos + count then sb.count - pos else count

/-- sbuf_delete_at: delete `count` bytes at `pos` (clamped), shifting the
tail left, shrinking the length and rewriting the sentinel; out-of-range
positions are a no-op. -/
def sbuf_delete_at (sb : stringbuf_t) (pos : Int) (count : Nat) : stringbuf_t :=
  if pos < 0 ∨ (sb.count : Int) ≤ pos then sb
  else
    { buf := (listWrite sb.buf pos.toNat
        ((sb.buf.drop (pos.toNat + delClamp sb pos.toNat count)).take
          (sb.count - pos.toNat - delClamp sb pos.toNat count))).set
        (sb.count - delClamp sb pos.toNat count) 0,
      buflen := sb.buflen,
      count := sb.count - delClamp sb pos.toNat count }

/-- sbuf_delete_from_to. -/
def sbuf_delete_from_to (sb : stringbuf_t) (pos e : Int) : stringbuf_t :=
  if e ≤ pos then sb else sbuf_delete_at sb pos (e - pos).toNat

/-- sbuf_delete_from. -/
def sbuf_delete_from (sb : stringbuf_t) (pos : Int) : stringbuf_t :=
  sbuf_delete_at sb pos ((sbuf_len sb : Int) - pos).toNat

/-- sbuf_clear. -/
def sbuf_clear (sb : stringbuf_t) : stringbuf_t :=
  sbuf_delete_at sb 0 (sbuf_len sb)

/-- sbuf_append_n. -/
def sbuf_append_n (sb : stringbuf_t) (s : List Nat) (n : Int) (allocOk : Bool) :
    stringbuf_t × Int :=
  sbuf_insert_at_n sb s n (sbuf_len sb) allocOk

/-- sbuf_append. -/
def sbuf_append (sb : stringbuf_t) (s : List Nat) (allocOk : Bool) : stringbuf_t × Int :=
  sbuf_insert_at sb s (sbuf_len sb) allocOk

/-- sbuf_append_char. -/
def sbuf_append_char (sb : stringbuf_t) (c : Nat) (allocOk : Bool) : stringbuf_t × Int :=
  sbuf_append sb [c, 0] allocOk

/-- The in-place formatted write of sbuf_append_vprintf after a successful
growth.  Modelled from the spec: the external formatter (vsnprintf) is
represented by the byte sequence `out` it would produce; it writes at most
`avail - 1` bytes plus a terminating 0 into the available space (nothing
when `avail = 0`) and reports the full needed length, and the length
actually credited to the buffer is capped at `avail`, truncating to
whatever fits and never overrunning capacity. -/
def vprintfWrite (sb1 : stringbuf_t) (out : List Nat) : stringbuf_t :=
  if sb1.buflen - sb1.count = 0 then
    { buf := sb1.buf.set sb1.count 0, buflen := sb1.buflen, count := sb1.count }
  else
    { buf := ((listWrite sb1.buf sb1.count
          (out.take (min out.length (sb1.buflen - sb1.count - 1)))).set
            (sb1.count + min out.length (sb1.buflen - sb1.count - 1)) 0).set
            (sb1.count + min out.length (sb1.buflen - sb1.count)) 0,
      buflen := sb1.buflen,
      count := sb1.count + min out.length (sb1.buflen - sb1.count) }

/-- sbuf_append_vprintf: grow by `max_needed` (on failure, return the
unchanged length), then format in place, truncating to the available
space. -/
def sbuf_append_vprintf (sb : stringbuf_t) (max_needed : Nat) (out : List Nat)
    (allocOk : Bool) : stringbuf_t × Nat :=
  if (sbuf_ensure_extra sb max_needed allocOk).1 then
    (vprintfWrite (sbuf_ensure_extra sb max_needed allocOk).2 out,
     (vprintfWrite (sbuf_ensure_extra sb max_needed allocOk).2 out).count)
  else ((sbuf_ensure_extra sb max_needed allocOk).2,
    (sbuf_ensure_extra sb max_needed allocOk).2.count)

/-- sbuf_next_ofs: scan the next display unit within the logical length. -/
def sbuf_next_ofs (sb : stringbuf_t) (pos : Nat) : Nat :=
  nextOfs sb.buf sb.count pos

/-- sbuf_prev_ofs: scan the previous codepoint. -/
def sbuf_prev_ofs (sb : stringbuf_t) (pos : Nat) : Nat :=
  prevOfs sb.buf pos

/-- sbuf_delete_char_before: find the byte span of the codepoint ending at
`pos` with the backward scan and delete exactly that span; returns the new
position `pos - n`, or 0 (without deleting) when no unit precedes `pos`. -/
def sbuf_delete_char_before (sb : stringbuf_t) (pos : Nat) : stringbuf_t × Nat :=
  if sbuf_prev_ofs sb pos = 0 then (sb, 0)
  else (sbuf_delete_at sb ((pos : Int) - sbuf_prev_ofs sb pos) (sbuf_prev_ofs sb pos),
    pos - sbuf_prev_ofs sb pos)

/-- sbuf_delete_char_at: find the byte span of the display unit starting at
`pos` with the forward scan and delete exactly that span. -/
def sbuf_delete_char_at (sb : stringbuf_t) (pos : Nat) : stringbuf_t :=
  if sbuf_next_ofs sb pos = 0 then sb
  else sbuf_delete_at sb pos (sbuf_next_ofs sb pos)

/-- sbuf_swap_char: exchange the display unit ending at `pos` with the one
starting at `pos`.  Refused (no-op, result 0) when either unit is missing
or when the unit being relocated through the 64-byte scratch buffer is 63
bytes or longer; the unit starting at `pos` is moved in place with no
bound.  Returns the new position `pos - prev` of the relocated unit. -/
def sbuf_swap_char (sb : stringbuf_t) (pos : Nat) : stringbuf_t × Nat :=
  if sbuf_next_ofs sb pos = 0 then (sb, 0)
  else if sbuf_prev_ofs sb pos = 0 then (sb, 0)
  else if 63 ≤ sbuf_prev_ofs sb pos then (sb, 0)
  else
    ({ buf := listWrite
        (listWrite sb.buf (pos - sbuf_prev_ofs sb pos)
          ((sb.buf.drop pos).take (sbuf_next_ofs sb pos)))
        (pos - sbuf_prev_ofs sb pos + sbuf_next_ofs sb pos)
        ((sb.buf.drop (pos - sbuf_prev_ofs sb pos)).take (sbuf_prev_ofs sb pos)),
       buflen := sb.buflen, count := sb.count },
     pos - sbuf_prev_ofs sb pos)

/-! ### Well-formed UTF-8 decompositions (for the no-split statements) -/

/-- A single well-formed UTF-8 codepoint encoding: one byte below 0x80, or
a 2/3/4-byte sequence with a lead byte of the matching class followed by
continuation bytes. -/
def isCp (c : List Nat) : Bool :=
  match c with
  | [] => false
  | [b] => decide (b < 0x80)
  | b :: rest =>
    ((decide (0xC2 ≤ b) && decide (b ≤ 0xDF) && rest.length == 1) ||
     (decide (0xE0 ≤ b) && decide (b ≤ 0xEF) && rest.length == 2) ||
     (decide (0xF0 ≤ b) && decide (b ≤ 0xF4) && rest.length == 3)) &&
    rest.all (fun x => isFollower x)

/-- A byte string that is a concatenation of well-formed UTF-8 codepoint
encodings. -/
inductive Utf8Cps : List Nat → Prop where
  | nil : Utf8Cps []
  | cons (c rest : List Nat) : isCp c = true → Utf8Cps rest → Utf8Cps (c ++ rest)

/-! ### Scanner lemmas -/

lemma nextOfsLoop_ge (s : List Nat) (len pos ofs : Nat) : ofs ≤ nextOfsLoop s len pos ofs := by
  induction ofs using nextOfsLoop.induct s len pos with
  | case1 x hx hf ih => rw [nextOfsLoop, dif_pos hx, if_pos hf]; omega
  | case2 x hx hf => rw [nextOfsLoop, dif_pos hx, if_neg hf]
  | case3 x hx => rw [nextOfsLoop, dif_neg hx]

lemma nextOfsLoop_le (s : List Nat) (len pos : Nat) :
    ∀ ofs, pos + ofs ≤ len → pos + nextOfsLoop s len pos ofs ≤ len := by
  intro ofs
  induction ofs using nextOfsLoop.induct s len pos with
  | case1 x hx hf ih =>
    intro _
    rw [nextOfsLoop, dif_pos hx, if_pos hf]
    exact ih (by omega)
  | case2 x hx hf => intro h; rw [nextOfsLoop, dif_pos hx, if_neg hf]; exact h
  | case3 x hx => intro h; rw [nextOfsLoop, dif_neg hx]; exact h

lemma nextOfsLoop_followers (s : List Nat) (len pos : Nat) :
    ∀ ofs j, ofs ≤ j → j < nextOfsLoop s len pos ofs →
      isFollower (s.getD (pos + j) 0) = true := by
  intro ofs
  induction ofs using nextOfsLoop.induct s len pos with
  | case1 x hx hf ih =>
    intro j h1 h2
    rw [nextOfsLoop, dif_pos hx, if_pos hf] at h2
    rcases Nat.eq_or_lt_of_le h1 with rfl | h1
    · exact hf
    · exact ih j h1 h2
  | case2 x hx hf =>
    intro j h1 h2
    rw [nextOfsLoop, dif_pos hx, if_neg hf] at h2
    omega
  | case3 x hx =>
    intro j h1 h2
    rw [nextOfsLoop, dif_neg hx] at h2
    omega

lemma skipCsiLoop_bounds (s : List Nat) (len : Nat) :
    ∀ im n, ∀ e, skipCsiLoop s len im n = some e → n + 1 ≤ e ∧ e ≤ len := by
  intro im n
  induction im, n using skipCsiLoop.induct s len with
  | case1 n hn h1 =>
    intro e he
    rw [skipCsiLoop, dif_pos hn, if_pos h1, if_pos rfl] at he
    exact absurd he (by simp)
  | case2 im n hn h1 him ih =>
    intro e he
    rw [skipCsiLoop, dif_pos hn, if_pos h1, if_neg him] at he
    have := ih e he; omega
  | case3 im n hn h1 h2 ih =>
    intro e he
    rw [skipCsiLoop, dif_pos hn, if_neg h1, if_pos h2] at he
    have := ih e he; omega
  | case4 im n hn h1 h2 h3 =>
    intro e he
    rw [skipCsiLoop, dif_pos hn, if_neg h1, if_neg h2, if_pos h3, Option.some.injEq] at he
    omega
  | case5 im n hn h1 h2 h3 =>
    intro e he
    rw [skipCsiLoop, dif_pos hn, if_neg h1, if_neg h2, if_neg h3] at he
    exact absurd he (by simp)
  | case6 im n hn =>
    intro e he
    rw [skipCsiLoop, dif_neg hn] at he
    exact absurd he (by simp)

lemma skip_csi_esc_bounds (s : List Nat) (len e : Nat) (h : skip_csi_esc s len = some e) :
    1 ≤ e ∧ e ≤ len := by
  rw [skip_csi_esc] at h
  split at h
  · exact absurd h (by simp)
  · split at h
    · exact absurd h (by simp)
    · split at h
      · have := skipCsiLoop_bounds s len false 2 e h; omega
      · simp only [Option.some.injEq] at h; omega

lemma nextOfs_pos (s : List Nat) (len pos : Nat) (h : pos < len) : 1 ≤ nextOfs s len pos := by
  rw [nextOfs, if_pos h]
  split
  · next e he => have := skip_csi_esc_bounds _ _ _ he; omega
  · have := nextOfsLoop_ge s len pos 1; omega

lemma nextOfs_le (s : List Nat) (len pos : Nat) : nextOfs s len pos ≤ len - pos := by
  rw [nextOfs]
  split
  · next h =>
    split
    · next e he => have := skip_csi_esc_bounds _ _ _ he; omega
    · have := nextOfsLoop_le s len pos 1 (by omega); omega
  · omega

lemma prevOfsLoop_le (s : List Nat) (pos : Nat) :
    ∀ ofs, ofs ≤ pos → prevOfsLoop s pos ofs ≤ pos := by
  intro ofs
  induction ofs using prevOfsLoop.induct s pos with
  | case1 x hx hf ih => intro _; rw [prevOfsLoop, dif_pos hx, if_pos hf]; exact ih (by omega)
  | case2 x hx hf => intro h; rw [prevOfsLoop, dif_pos hx, if_neg hf]; exact h
  | case3 x hx => intro h; rw [prevOfsLoop, dif_neg hx]; exact h

lemma prevOfsLoop_ge (s : List Nat) (pos ofs : Nat) : ofs ≤ prevOfsLoop s pos ofs := by
  induction ofs using prevOfsLoop.induct s pos with
  | case1 x hx hf ih => rw [prevOfsLoop, dif_pos hx, if_pos hf]; omega
  | case2 x hx hf => rw [prevOfsLoop, dif_pos hx, if_neg hf]
  | case3 x hx => rw [prevOfsLoop, dif_neg hx]

lemma prevOfs_pos (s : List Nat) (pos : Nat) (h : 0 < pos) : 1 ≤ prevOfs s pos := by
  rw [prevOfs, if_pos h]; exact prevOfsLoop_ge s pos 1

lemma prevOfs_le (s : List Nat) (pos : Nat) : prevOfs s pos ≤ pos := by
  rw [prevOfs]
  split
  · next h => exact prevOfsLoop_le s pos 1 h
  · omega

/-- Computation rule for the backward scan: if the `t - 1` bytes before
position `q` are continuation bytes and the byte `t` positions before `q`
is not (or the scan hits position 0 there), the scan returns exactly `t`. -/
lemma prevOfsLoop_eq (s : List Nat) (q t : Nat) (ht : t ≤ q)
    (hf : ∀ j, 1 ≤ j → j < t → isFollower (s.getD (q - j) 0) = true)
    (hstop : t < q → isFollower (s.getD (q - t) 0) = false) :
    ∀ o, 1 ≤ o → o ≤ t → prevOfsLoop s q o = t := by
  intro o
  induction o using prevOfsLoop.induct s q with
  | case1 x hx hfx ih =>
    intro h1 h2
    rw [prevOfsLoop, dif_pos hx, if_pos hfx]
    rcases Nat.eq_or_lt_of_le h2 with rfl | h2
    · rw [hstop hx] at hfx; exact absurd hfx (by simp)
    · exact ih (by omega) (by omega)
  | case2 x hx hfx =>
    intro h1 h2
    rw [prevOfsLoop, dif_pos hx, if_neg hfx]
    rcases Nat.eq_or_lt_of_le h2 with rfl | h2
    · rfl
    · rw [hf x h1 h2] at hfx; exact absurd rfl hfx
  | case3 x hx =>
    intro h1 h2
    rw [prevOfsLoop, dif_neg hx]
    omega

/-! ### Claim C5: strict forward progress of the scanners -/

/-- C5: for every byte string, length and position with `pos < len`,
str_next_ofs returns a byte length of at least 1, and for every position
with `0 < pos`, str_prev_ofs returns at least 1 — malformed UTF-8 or
incomplete escapes degrade to a 1-byte unit, never a zero-length unit, so
display-unit loops make strict forward progress. -/
theorem scan_progress (mkw : Nat → Int) (s : List Nat) (len pos : Nat) :
    (pos < len → 1 ≤ (str_next_ofs mkw s len pos).1) ∧
    (0 < pos → 1 ≤ (str_prev_ofs mkw s pos).1) := by
  constructor
  · intro h
    show 1 ≤ nextOfs s len pos
    exact nextOfs_pos s len pos h
  · intro h
    show 1 ≤ prevOfs s pos
    exact prevOfs_pos s pos h

/-- Witness for scan_progress at a concrete one-byte buffer. -/
theorem scan_progress_attests :
    1 ≤ (str_next_ofs (fun _ => 1) [97] 1 0).1 ∧ 1 ≤ (str_prev_ofs (fun _ => 1) [97] 1).1 :=
  ⟨(scan_progress (fun _ => 1) [97] 1 0).1 (by omega),
   (scan_progress (fun _ => 1) [97] 1 1).2 (by omega)⟩

/-! ### Claim C3: next/prev round trip -/

/-- C3 counterexample: in the buffer [65, 128] (letter A followed by a bare
continuation byte), the unit at position 1 has byte length 1, but scanning
backward from position 2 returns length 2 — the round trip does not return
to position 1, although the unit at position 1 is not an escape sequence. -/
theorem next_prev_roundtrip_cex :
    (str_next_ofs (fun _ => 1) [65, 128] 2 1).1 = 1 ∧
    (str_prev_ofs (fun _ => 1) [65, 128] 2).1 = 2 := by
  constructor <;>
    simp [str_next_ofs, str_prev_ofs, nextOfs, prevOfs, nextOfsLoop, prevOfsLoop,
      skip_csi_esc, isFollower]

/-- C3 (amended): the round trip holds at every position whose byte is not
a UTF-8 continuation byte, in addition to the escape-sequence exclusion:
scanning forward from `pos` and then backward from `pos + length` returns
the same byte length and the same display width. -/
theorem next_prev_roundtrip (mkw : Nat → Int) (s : List Nat) (len pos : Nat)
    (hpos : pos < len)
    (hlead : isFollower (s.getD pos 0) = false)
    (hesc : skip_csi_esc (s.drop pos) (len - pos) = none) :
    str_prev_ofs mkw s (pos + (str_next_ofs mkw s len pos).1) = str_next_ofs mkw s len pos := by
  have hn : nextOfs s len pos = nextOfsLoop s len pos 1 := by
    rw [nextOfs, if_pos hpos, hesc]
  have ht1 : 1 ≤ nextOfsLoop s len pos 1 := nextOfsLoop_ge s len pos 1
  have hprev : prevOfs s (pos + nextOfs s len pos) = nextOfs s len pos := by
    rw [hn, prevOfs, if_pos (by omega)]
    apply prevOfsLoop_eq s (pos + nextOfsLoop s len pos 1) (nextOfsLoop s len pos 1)
      (by omega) ?_ ?_ 1 le_rfl ht1
    · intro j h1 h2
      have hj : pos + nextOfsLoop s len pos 1 - j = pos + (nextOfsLoop s len pos 1 - j) := by
        omega
      rw [hj]
      exact nextOfsLoop_followers s len pos 1 (nextOfsLoop s len pos 1 - j)
        (by omega) (by omega)
    · intro h
      have hj : pos + nextOfsLoop s len pos 1 - nextOfsLoop s len pos 1 = pos := by omega
      rw [hj]
      exact hlead
  simp only [str_prev_ofs, str_next_ofs, hprev]
  have hd : pos + nextOfs s len pos - nextOfs s len pos = pos := by omega
  rw [hd]

/-- Witness for next_prev_roundtrip on a two-byte codepoint. -/
theorem next_prev_roundtrip_attests :
    str_prev_ofs (fun _ => 1) [65, 195, 169] (1 + (str_next_ofs (fun _ => 1) [65, 195, 169] 3 1).1) =
      str_next_ofs (fun _ => 1) [65, 195, 169] 3 1 :=
  next_prev_roundtrip (fun _ => 1) [65, 195, 169] 3 1 (by omega) (by decide) (by decide)

/-! ### Row-walk lemmas -/

lemma for_each_row_go_ge {σ : Type} (mkw : Nat → Int) (s : List Nat) (len : Nat)
    (termw promptw cpromptw : Int) (f : σ → Nat → Nat → Nat → Bool → Bool × σ)
    (hf : ∀ st r a b w, (f st r a b w).1 = false) :
    ∀ i rcount rstart rcol st,
      rcount + 1 ≤ (for_each_row_go mkw s len termw promptw cpromptw f i rcount rstart rcol st).1 := by
  intro i rcount rstart rcol st
  induction i, rcount, rstart, rcol, st using for_each_row_go.induct mkw s len termw promptw cpromptw f with
  | case1 i rcount rstart rcol st hi hn hstop => simp [hf] at hstop
  | case2 i rcount rstart rcol st hi hn hstop =>
    rw [for_each_row_go]
    simp only [hi, hn, dite_true, if_pos, hf, Bool.false_eq_true, if_false]
    omega
  | case3 i rcount rstart rcol st hi hn hw hstop => simp [hf] at hstop
  | case4 i rcount rstart rcol st hi hn hw hstop hnl hstop2 => simp [hf] at hstop2
  | case5 i rcount rstart rcol st hi hn hw hstop hnl hstop2 ih =>
    simp only [dite_eq_ite] at hw
    rw [for_each_row_go]
    simp only [hi, dite_true, hn, dite_false, if_pos hw, hf, Bool.false_eq_true, if_false,
      if_pos hnl]
    omega
  | case6 i rcount rstart rcol st hi hn hw hstop hnl ih =>
    simp only [dite_eq_ite] at hw
    rw [for_each_row_go]
    simp only [hi, dite_true, hn, dite_false, if_pos hw, hf, Bool.false_eq_true, if_false,
      if_neg hnl]
    omega
  | case7 i rcount rstart rcol st hi hn hw hnl hstop => simp [hf] at hstop
  | case8 i rcount rstart rcol st hi hn hw hnl hstop ih =>
    simp only [dite_eq_ite] at hw
    rw [for_each_row_go]
    simp only [hi, dite_true, hn, dite_false, if_neg hw, hf, Bool.false_eq_true, if_false,
      if_pos hnl]
    omega
  | case9 i rcount rstart rcol st hi hn hw hnl ih =>
    simp only [dite_eq_ite] at hw
    rw [for_each_row_go]
    simp only [hi, dite_true, hn, dite_false, if_neg hw, if_neg hnl]
    omega
  | case10 i rcount rstart rcol st hi hstop => simp [hf] at hstop
  | case11 i rcount rstart rcol st hi hstop =>
    rw [for_each_row_go]
    simp only [hi, dite_false, hf, Bool.false_eq_true, if_false]
    omega

lemma for_each_row_go_eq_trivial {σ : Type} (mkw : Nat → Int) (s : List Nat) (len : Nat)
    (termw promptw cpromptw : Int) (f : σ → Nat → Nat → Nat → Bool → Bool × σ)
    (hf : ∀ st r a b w, (f st r a b w).1 = false) :
    ∀ i rcount rstart rcol st,
      (for_each_row_go mkw s len termw promptw cpromptw f i rcount rstart rcol st).1 =
      (for_each_row_go (σ := Unit) mkw s len termw promptw cpromptw
        (fun u _ _ _ _ => (false, u)) i rcount rstart rcol ()).1 := by
  intro i rcount rstart rcol st
  induction i, rcount, rstart, rcol, st using for_each_row_go.induct mkw s len termw promptw cpromptw f with
  | case1 i rcount rstart rcol st hi hn hstop => simp [hf] at hstop
  | case2 i rcount rstart rcol st hi hn hstop =>
    rw [for_each_row_go]
    conv_rhs => rw [for_each_row_go]
    simp only [hi, dite_true, hn, hf, Bool.false_eq_true, if_false]
  | case3 i rcount rstart rcol st hi hn hw hstop => simp [hf] at hstop
  | case4 i rcount rstart rcol st hi hn hw hstop hnl hstop2 => simp [hf] at hstop2
  | case5 i rcount rstart rcol st hi hn hw hstop hnl hstop2 ih =>
    simp only [dite_eq_ite] at hw
    rw [for_each_row_go]
    conv_rhs => rw [for_each_row_go]
    simp only [hi, dite_true, hn, dite_false, if_pos hw, hf, Bool.false_eq_true, if_false,
      if_pos hnl]
    exact ih
  | case6 i rcount rstart rcol st hi hn hw hstop hnl ih =>
    simp only [dite_eq_ite] at hw
    rw [for_each_row_go]
    conv_rhs => rw [for_each_row_go]
    simp only [hi, dite_true, hn, dite_false, if_pos hw, hf, Bool.false_eq_true, if_false,
      if_neg hnl]
    exact ih
  | case7 i rcount rstart rcol st hi hn hw hnl hstop => simp [hf] at hstop
  | case8 i rcount rstart rcol st hi hn hw hnl hstop ih =>
    simp only [dite_eq_ite] at hw
    rw [for_each_row_go]
    conv_rhs => rw [for_each_row_go]
    simp only [hi, dite_true, hn, dite_false, if_neg hw, hf, Bool.false_eq_true, if_false,
      if_pos hnl]
    exact ih
  | case9 i rcount rstart rcol st hi hn hw hnl ih =>
    simp only [dite_eq_ite] at hw
    rw [for_each_row_go]
    conv_rhs => rw [for_each_row_go]
    simp only [hi, dite_true, hn, dite_false, if_neg hw, if_neg hnl]
    exact ih
  | case10 i rcount rstart rcol st hi hstop => simp [hf] at hstop
  | case11 i rcount rstart rcol st hi hstop =>
    rw [for_each_row_go]
    conv_rhs => rw [for_each_row_go]
    simp only [hi, dite_false, hf, Bool.false_eq_true, if_false]

/-! ### Claim C1: return value of the row walk -/

/-- C1 counterexample: a visitor that requests early termination on the
first row makes str_for_each_row return 0 on the empty buffer, while the
total row count of that layout is 1 — the returned value is neither the
total row count nor at least 1. -/
theorem for_each_row_stop_returns_zero :
    (str_for_each_row (σ := Unit) (fun _ => 1) [] 0 0 0 0 (fun u _ _ _ _ => (true, u)) ()).1 = 0 ∧
    row_count (fun _ => 1) [] 0 0 0 0 = 1 := by
  constructor <;> simp [str_for_each_row, row_count, for_each_row_go]

/-- C1 (amended): when the visitor never requests early termination,
str_for_each_row returns the total row count of the layout, which is at
least 1 even for an empty buffer; when the visitor stops early the function
instead returns the index of the row at which it stopped. -/
theorem for_each_row_total_rows {σ : Type} (mkw : Nat → Int) (s : List Nat) (len : Nat)
    (termw promptw cpromptw : Int) (f : σ → Nat → Nat → Nat → Bool → Bool × σ) (st : σ)
    (hf : ∀ st r a b w, (f st r a b w).1 = false) :
    (str_for_each_row mkw s len termw promptw cpromptw f st).1 =
      row_count mkw s len termw promptw cpromptw ∧
    1 ≤ (str_for_each_row mkw s len termw promptw cpromptw f st).1 := by
  constructor
  · exact for_each_row_go_eq_trivial mkw s len termw promptw cpromptw f hf 0 0 0 0 st
  · exact for_each_row_go_ge mkw s len termw promptw cpromptw f hf 0 0 0 0 st

/-- Witness for for_each_row_total_rows with a counting visitor on a
two-row buffer. -/
theorem for_each_row_total_rows_attests :
    (str_for_each_row (σ := Nat) (fun _ => 1) [97, 10, 98] 3 0 0 0
        (fun n _ _ _ _ => (false, n + 1)) 0).1 =
      row_count (fun _ => 1) [97, 10, 98] 3 0 0 0 ∧
    1 ≤ (str_for_each_row (σ := Nat) (fun _ => 1) [97, 10, 98] 3 0 0 0
        (fun n _ _ _ _ => (false, n + 1)) 0).1 :=
  for_each_row_total_rows (fun _ => 1) [97, 10, 98] 3 0 0 0
    (fun n _ _ _ _ => (false, n + 1)) 0 (fun _ _ _ _ _ => rfl)

lemma getD_drop (l : List Nat) (i j : Nat) : (l.drop i).getD j 0 = l.getD (i + j) 0 := by
  simp [List.getD_eq_getElem?_getD, List.getElem?_drop]

lemma skip_csi_esc_none_of_head (s : List Nat) (len : Nat) (h : s.getD 0 0 ≠ 27) :
    skip_csi_esc s len = none := by
  rw [skip_csi_esc]
  by_cases h2 : len < 2
  · rw [if_pos h2]
  · rw [if_neg h2, if_pos h]

lemma getD_ne27_of_no_esc (s : List Nat) (i : Nat) (hi : i < s.length)
    (hesc : ∀ b ∈ s, b ≠ 27) : s.getD i 0 ≠ 27 := by
  rw [List.getD_eq_getElem s 0 hi]
  exact hesc _ (List.getElem_mem hi)

/-- In the absence of an ESC byte at the scan position, str_next_ofs takes
the plain UTF-8 branch. -/
lemma nextOfs_eq_loop (s : List Nat) (len i : Nat) (hi : i < len)
    (h27 : s.getD i 0 ≠ 27) : nextOfs s len i = nextOfsLoop s len i 1 := by
  rw [nextOfs, if_pos hi, skip_csi_esc_none_of_head]
  rw [getD_drop]
  simpa using h27

/-- A display unit consumes the newline count of exactly its head byte: the
continuation bytes inside a unit are in 0x80..0xBF, never the newline. -/
lemma count_unit_step (s : List Nat) :
    ∀ t i, 1 ≤ t → (∀ j, 1 ≤ j → j < t → isFollower (s.getD (i + j) 0) = true) →
      i < s.length →
      (s.drop i).count 10 = (if s.getD i 0 = 10 then 1 else 0) + (s.drop (i + t)).count 10 := by
  intro t
  induction t with
  | zero => omega
  | succ t ih =>
    intro i h1 hf hi
    rcases Nat.eq_or_lt_of_le h1 with h | h
    · -- t + 1 = 1
      have ht0 : t = 0 := by omega
      subst ht0
      have hgd : s.getD i 0 = s[i] := List.getD_eq_getElem s 0 hi
      rw [List.drop_eq_getElem_cons hi, List.count_cons, hgd]
      simp only [beq_iff_eq, Nat.zero_add]
      by_cases hc : s[i] = 10
      · rw [if_pos hc]
        omega
      · rw [if_neg hc]
        omega
    · -- t ≥ 1: peel one follower byte off the end of the unit
      have ht : 1 ≤ t := by omega
      rw [ih i ht (fun j hj1 hj2 => hf j hj1 (by omega)) hi]
      by_cases hend : i + t < s.length
      · rw [List.drop_eq_getElem_cons hend, List.count_cons]
        simp only [beq_iff_eq]
        have hfol : isFollower (s.getD (i + t) 0) = true := hf t ht (by omega)
        rw [List.getD_eq_getElem s 0 hend, isFollower] at hfol
        have hne : ¬ s[i + t] = 10 := by
          intro hc
          rw [hc] at hfol
          simp at hfol
        rw [if_neg hne]
        have hidx : i + t + 1 = i + (t + 1) := by omega
        rw [hidx]
        omega
      · have h1 : s.drop (i + t) = [] := List.drop_eq_nil_of_le (by omega)
        have h2 : s.drop (i + (t + 1)) = [] := List.drop_eq_nil_of_le (by omega)
        rw [h1, h2]

/-! ### Claim C6: unbounded width gives one row per line -/

/-- With termw = 0 and no ESC byte in the buffer, the walk counts exactly
one row boundary per newline byte. -/
lemma termw0_go_count (mkw : Nat → Int) (s : List Nat) (promptw cpromptw : Int)
    (hesc : ∀ b ∈ s, b ≠ 27) :
    ∀ i rcount rstart rcol st,
      (for_each_row_go (σ := Unit) mkw s s.length 0 promptw cpromptw
        (fun u _ _ _ _ => (false, u)) i rcount rstart rcol st).1 =
      rcount + 1 + (s.drop i).count 10 := by
  intro i rcount rstart rcol st
  induction i, rcount, rstart, rcol, st using for_each_row_go.induct mkw s s.length 0 promptw cpromptw
      (fun u _ _ _ _ => (false, u)) with
  | case1 i rcount rstart rcol st hi hn hstop => simp at hstop
  | case2 i rcount rstart rcol st hi hn hstop =>
    exact absurd hn (by have := nextOfs_pos s s.length i hi; omega)
  | case3 i rcount rstart rcol st hi hn hw hstop => exact absurd rfl hw.1
  | case4 i rcount rstart rcol st hi hn hw hstop hnl hstop2 => exact absurd rfl hw.1
  | case5 i rcount rstart rcol st hi hn hw hstop hnl hstop2 ih => exact absurd rfl hw.1
  | case6 i rcount rstart rcol st hi hn hw hstop hnl ih => exact absurd rfl hw.1
  | case7 i rcount rstart rcol st hi hn hw hnl hstop => simp at hstop
  | case8 i rcount rstart rcol st hi hn hw hnl hstop ih =>
    rw [for_each_row_go]
    simp only [hi, dite_true, hn, dite_false, if_neg hw, if_pos hnl, Bool.false_eq_true,
      if_false]
    have hloop := nextOfs_eq_loop s s.length i hi (getD_ne27_of_no_esc s i hi hesc)
    have hstep := count_unit_step s (nextOfs s s.length i) i
      (by have := nextOfs_pos s s.length i hi; omega)
      (fun j h1 h2 => nextOfsLoop_followers s s.length i 1 j h1 (by rw [← hloop]; exact h2)) hi
    rw [hstep, if_pos hnl]
    exact ih.trans (by omega)
  | case9 i rcount rstart rcol st hi hn hw hnl ih =>
    rw [for_each_row_go]
    simp only [hi, dite_true, hn, dite_false, if_neg hw, if_neg hnl]
    have hloop := nextOfs_eq_loop s s.length i hi (getD_ne27_of_no_esc s i hi hesc)
    have hstep := count_unit_step s (nextOfs s s.length i) i
      (by have := nextOfs_pos s s.length i hi; omega)
      (fun j h1 h2 => nextOfsLoop_followers s s.length i 1 j h1 (by rw [← hloop]; exact h2)) hi
    rw [hstep, if_neg hnl]
    exact ih.trans (by omega)
  | case10 i rcount rstart rcol st hi hstop => simp at hstop
  | case11 i rcount rstart rcol st hi hstop =>
    rw [for_each_row_go]
    simp only [hi, dite_false, Bool.false_eq_true, if_false]
    rw [List.drop_eq_nil_of_le (by omega)]
    rfl

/-- C6 counterexample: the buffer [27, 10] (ESC followed by newline) with
termw = 0 lays out as a single row, because the newline byte is consumed
inside the 2-byte single-character escape unit and never checked for a hard
break — but 1 + (number of newline bytes) is 2. -/
theorem termw0_rows_cex :
    row_count (fun _ => 1) [27, 10] 2 0 0 0 = 1 ∧ 1 + ([27, 10].count 10) = 2 := by
  constructor
  · simp [row_count, str_for_each_row, for_each_row_go, nextOfs, skip_csi_esc,
      char_column_width]
  · rfl

/-- C6 (amended): for every buffer content that contains no ESC byte
(0x1B), the row walk with termw = 0 (unbounded width, never soft-wrapping)
produces exactly 1 + (number of newline bytes) rows, regardless of content
length or prompt widths. -/
theorem termw0_rows (mkw : Nat → Int) (s : List Nat) (promptw cpromptw : Int)
    (hesc : ∀ b ∈ s, b ≠ 27) :
    row_count mkw s s.length 0 promptw cpromptw = 1 + s.count 10 := by
  rw [row_count, str_for_each_row, termw0_go_count mkw s promptw cpromptw hesc 0 0 0 0 ()]
  rw [List.drop_zero]

/-- Witness for termw0_rows on a two-line buffer. -/
theorem termw0_rows_attests :
    row_count (fun _ => 1) [97, 10, 98] 3 0 0 0 = 1 + [97, 10, 98].count 10 :=
  termw0_rows (fun _ => 1) [97, 10, 98] 0 0 (by decide)

/-! ### Claim C7: the rows reconstruct the buffer length -/

lemma rowTally_cons (a : Nat × Nat × Bool) (l : List (Nat × Nat × Bool)) (h : l ≠ []) :
    rowTally (a :: l) = a.2.1 + (if a.2.2 then 0 else 1) + rowTally l := by
  cases l with
  | nil => exact absurd rfl h
  | cons b t => rfl

lemma rowTally_cons_wrap (a b : Nat) (l : List (Nat × Nat × Bool)) (h : l ≠ []) :
    rowTally ((a, b, true) :: l) = b + rowTally l := by
  rw [rowTally_cons _ _ h]
  simp

lemma rowTally_cons_hard (a b : Nat) (l : List (Nat × Nat × Bool)) (h : l ≠ []) :
    rowTally ((a, b, false) :: l) = b + 1 + rowTally l := by
  rw [rowTally_cons _ _ h]
  simp

/-- Every suffix of the walk with the row-collecting visitor appends a
nonempty row list whose tally is the number of bytes from the current row
start to the end of the buffer. -/
lemma rows_go_tally (mkw : Nat → Int) (s : List Nat) (termw promptw cpromptw : Int) :
    ∀ i rcount rstart rcol acc, rstart ≤ i → i ≤ s.length →
      ∃ d, d ≠ [] ∧
        (for_each_row_go (σ := List (Nat × Nat × Bool)) mkw s s.length termw promptw cpromptw
          (fun st _ rstart rlen wrap => (false, st ++ [(rstart, rlen, wrap)]))
          i rcount rstart rcol acc).2 = acc ++ d ∧
        rowTally d = s.length - rstart := by
  intro i rcount rstart rcol acc
  induction i, rcount, rstart, rcol, acc using for_each_row_go.induct mkw s s.length termw
      promptw cpromptw
      (fun st _ rstart rlen wrap => (false, st ++ [(rstart, rlen, wrap)])) with
  | case1 i rcount rstart rcol st hi hn hstop => simp at hstop
  | case2 i rcount rstart rcol st hi hn hstop =>
    exact absurd hn (by have := nextOfs_pos s s.length i hi; omega)
  | case3 i rcount rstart rcol st hi hn hw hstop => simp at hstop
  | case4 i rcount rstart rcol st hi hn hw hstop hnl hstop2 => simp at hstop2
  | case5 i rcount rstart rcol st hi hn hw hstop hnl hstop2 ih =>
    intro h1 h2
    simp only [dite_eq_ite] at hw
    have hle := nextOfs_le s s.length i
    obtain ⟨d, hd0, hd1, hd2⟩ := ih (by omega) (by omega)
    refine ⟨(rstart, i - rstart, true) :: (i, 0, false) :: d, by simp, ?_, ?_⟩
    · rw [for_each_row_go]
      simp only [hi, dite_true, hn, dite_false, if_pos hw, if_pos hnl, Bool.false_eq_true,
        if_false]
      rw [hd1]
      simp [List.append_assoc]
    · rw [show rowTally ((rstart, i - rstart, true) :: (i, 0, false) :: d) =
        (i - rstart) + 0 + rowTally ((i, 0, false) :: d) from rfl]
      rw [rowTally_cons _ _ hd0, hd2]
      simp only [Bool.false_eq_true, if_false, if_true]
      omega
  | case6 i rcount rstart rcol st hi hn hw hstop hnl ih =>
    intro h1 h2
    simp only [dite_eq_ite] at hw
    have hle := nextOfs_le s s.length i
    obtain ⟨d, hd0, hd1, hd2⟩ := ih (by omega) (by omega)
    refine ⟨(rstart, i - rstart, true) :: d, by simp, ?_, ?_⟩
    · rw [for_each_row_go]
      simp only [hi, dite_true, hn, dite_false, if_pos hw, if_neg hnl, Bool.false_eq_true,
        if_false]
      rw [hd1]
      simp [List.append_assoc]
    · rw [rowTally_cons_wrap _ _ _ hd0, hd2]
      omega
  | case7 i rcount rstart rcol st hi hn hw hnl hstop => simp at hstop
  | case8 i rcount rstart rcol st hi hn hw hnl hstop ih =>
    intro h1 h2
    simp only [dite_eq_ite] at hw
    have hle := nextOfs_le s s.length i
    obtain ⟨d, hd0, hd1, hd2⟩ := ih (by omega) (by omega)
    refine ⟨(rstart, i - rstart, false) :: d, by simp, ?_, ?_⟩
    · rw [for_each_row_go]
      simp only [hi, dite_true, hn, dite_false, if_neg hw, if_pos hnl, Bool.false_eq_true,
        if_false]
      rw [hd1]
      simp [List.append_assoc]
    · rw [rowTally_cons_hard _ _ _ hd0, hd2]
      omega
  | case9 i rcount rstart rcol st hi hn hw hnl ih =>
    intro h1 h2
    simp only [dite_eq_ite] at hw
    have hle := nextOfs_le s s.length i
    obtain ⟨d, hd0, hd1, hd2⟩ := ih (by omega) (by omega)
    refine ⟨d, hd0, ?_, hd2⟩
    rw [for_each_row_go]
    simp only [hi, dite_true, hn, dite_false, if_neg hw, if_neg hnl]
    exact hd1
  | case10 i rcount rstart rcol st hi hstop => simp at hstop
  | case11 i rcount rstart rcol st hi hstop =>
    intro h1 h2
    refine ⟨[(rstart, i - rstart, false)], by simp, ?_, ?_⟩
    · rw [for_each_row_go]
      simp only [hi, dite_false, Bool.false_eq_true, if_false]
    · rw [show rowTally [(rstart, i - rstart, false)] = i - rstart from rfl]
      omega

/-- The tally equals the claim's formulation: the sum of the row byte
lengths, plus 1 for every non-final row that did not end in a soft wrap. -/
lemma rowTally_eq_sum_plus_breaks (l : List (Nat × Nat × Bool)) :
    rowTally l = (l.map (fun r => r.2.1)).sum +
      (l.dropLast.filter (fun r => !r.2.2)).length := by
  induction l with
  | nil => rfl
  | cons a t ih =>
    cases t with
    | nil => simp [rowTally]
    | cons b t2 =>
      rw [rowTally_cons a (b :: t2) (by simp), ih, List.dropLast_cons₂, List.filter_cons]
      cases hw : a.2.2 <;> simp [hw] <;> omega

/-- C7: for every buffer content and every termw, promptw and cpromptw,
summing the row byte lengths reported to the visitor, plus 1 for each
non-final row that ended by consuming a literal newline (hard break) and 0
for each soft-wrapped row and for the final row, reconstructs the buffer's
logical length exactly. -/
theorem rows_reconstruct_length (mkw : Nat → Int) (s : List Nat)
    (termw promptw cpromptw : Int) :
    ((str_rows mkw s s.length termw promptw cpromptw).map (fun r => r.2.1)).sum +
      ((str_rows mkw s s.length termw promptw cpromptw).dropLast.filter
        (fun r => !r.2.2)).length = s.length := by
  obtain ⟨d, hd0, hd1, hd2⟩ :=
    rows_go_tally mkw s termw promptw cpromptw 0 0 0 0 [] (Nat.le_refl 0) (by omega)
  rw [str_rows, str_for_each_row, hd1]
  rw [List.nil_append]
  rw [← rowTally_eq_sum_plus_breaks, hd2]
  omega

/-! ### List surgery and length-limit lemmas -/

lemma take_set_le (l : List Nat) (k t : Nat) (a : Nat) (h : t ≤ k) :
    (l.set k a).take t = l.take t := by
  apply List.ext_getElem?
  intro i
  rw [List.getElem?_take, List.getElem?_take]
  split
  · next hi => rw [List.getElem?_set_ne (by omega)]
  · rfl

lemma getD_set_eq (l : List Nat) (k : Nat) (a : Nat) (h : k < l.length) :
    (l.set k a).getD k 0 = a := by
  rw [List.getD_eq_getElem _ 0 (by simpa using h)]
  exact List.getElem_set_self (by simpa using h)

lemma getD_set_ne (l : List Nat) (k j : Nat) (a : Nat) (h : k ≠ j) :
    (l.set k a).getD j 0 = l.getD j 0 := by
  simp [List.getD_eq_getElem?_getD, List.getElem?_set_ne h]

lemma listWrite_length (l : List Nat) (i : Nat) (d : List Nat) (h : i + d.length ≤ l.length) :
    (listWrite l i d).length = l.length := by
  simp only [listWrite, List.length_append, List.length_take, List.length_drop]
  omega

lemma listWrite_getD_ge (l : List Nat) (i : Nat) (d : List Nat) (j : Nat)
    (hi : i ≤ l.length) (hj : i + d.length ≤ j) :
    (listWrite l i d).getD j 0 = l.getD j 0 := by
  rw [listWrite, List.append_assoc]
  have h1 : (l.take i).length = i := by simp [hi]
  rw [List.getD_eq_getElem?_getD, List.getElem?_append_right (by omega),
    List.getElem?_append_right (by simp; omega), h1]
  simp only [List.length_take, List.getElem?_drop]
  rw [← List.getD_eq_getElem?_getD]
  congr 1
  omega

/-- The first-0-index characterization of the modelled strlen. -/
lemma rp_strlen_spec (s : List Nat) :
    (∀ j, j < rp_strlen s → s.getD j 0 ≠ 0) ∧ s.getD (rp_strlen s) 0 = 0 := by
  induction s with
  | nil => exact ⟨fun j hj => absurd hj (by simp [rp_strlen]), rfl⟩
  | cons b t ih =>
    by_cases hb : b = 0
    · subst hb
      refine ⟨fun j hj => absurd hj (by simp [rp_strlen]), ?_⟩
      simp [rp_strlen]
    · have hbb : (fun b => b != 0) b = true := by simpa using hb
      have hcons : rp_strlen (b :: t) = rp_strlen t + 1 := by
        rw [rp_strlen, rp_strlen, @List.takeWhile_cons_of_pos Nat (fun b => b != 0) b t hbb, List.length_cons]
      refine ⟨?_, ?_⟩
      · intro j hj
        cases j with
        | zero => simpa using hb
        | succ j2 =>
          have := ih.1 j2 (by omega)
          simpa using this
      · rw [hcons]
        simpa using ih.2

lemma rp_strlen_le_length (s : List Nat) : rp_strlen s ≤ s.length := by
  induction s with
  | nil => simp [rp_strlen]
  | cons b t ih =>
    by_cases hb : b = 0
    · subst hb; simp [rp_strlen]
    · have hbb : (fun b => b != 0) b = true := by simpa using hb
      have : rp_strlen (b :: t) = rp_strlen t + 1 := by
        rw [rp_strlen, rp_strlen, @List.takeWhile_cons_of_pos Nat (fun b => b != 0) b t hbb, List.length_cons]
      rw [this]
      simp
      omega

lemma limitLoop_eq_min (s : List Nat) (n : Int) (hn : 0 ≤ n) :
    ∀ i, i ≤ n.toNat → (∀ j, j < i → s.getD j 0 ≠ 0) →
      limitLoop s n i = min n.toNat (rp_strlen s) := by
  intro i
  induction i using limitLoop.induct s n with
  | case1 i hlt hne ih =>
    intro h1 h2
    rw [limitLoop, dif_pos hlt, if_pos hne]
    exact ih (by omega) (fun j hj => by
      rcases Nat.lt_or_ge j i with hj2 | hj2
      · exact h2 j hj2
      · have : j = i := by omega
        rw [this]; exact hne)
  | case2 i hlt hne =>
    intro h1 h2
    rw [limitLoop, dif_pos hlt, if_neg hne]
    have hz : s.getD i 0 = 0 := by
      by_contra hc
      exact hne hc
    have hle : rp_strlen s ≤ i := by
      by_contra hc
      exact (rp_strlen_spec s).1 i (by omega) hz
    have hge : i ≤ rp_strlen s := by
      by_contra hc
      exact h2 (rp_strlen s) (by omega) (rp_strlen_spec s).2
    omega
  | case3 i hlt =>
    intro h1 h2
    rw [limitLoop, dif_neg hlt]
    have hi : i = n.toNat := by omega
    have hge : i ≤ rp_strlen s := by
      by_contra hc
      exact h2 (rp_strlen s) (by omega) (rp_strlen_spec s).2
    omega

/-- C10's clamp characterization: str_limit_to_length is exactly the
minimum of the request and the offset of the first 0 byte. -/
lemma str_limit_eq_min (s : List Nat) (n : Int) (hn : 0 ≤ n) :
    str_limit_to_length s n = min n.toNat (rp_strlen s) :=
  limitLoop_eq_min s n hn 0 (by omega) (by omega)

lemma str_limit_le_length (s : List Nat) (n : Int) : str_limit_to_length s n ≤ s.length := by
  rcases Int.lt_or_le n 0 with hn | hn
  · rw [str_limit_to_length, limitLoop, dif_neg (by omega)]
    omega
  · rw [str_limit_eq_min s n hn]
    have := rp_strlen_le_length s
    omega

/-! ### sbuf_ensure_extra lemmas -/

lemma ensureNewlen_ge (sb : stringbuf_t) (extra : Nat) :
    sb.count + extra ≤ ensureNewlen sb extra := by
  rw [ensureNewlen]
  by_cases h1 : (if sb.buflen = 0 then 124 else 2 * sb.buflen) ≤ sb.count + extra
  · rw [if_pos h1]
  · rw [if_neg h1]
    omega

lemma ensure_extra_of_true (sb : stringbuf_t) (extra : Nat) :
    (sbuf_ensure_extra sb extra true).1 = true := by
  rw [sbuf_ensure_extra]
  split
  · rfl
  · rw [if_pos rfl]

lemma ensure_extra_false_eq (sb : stringbuf_t) (extra : Nat) (ok : Bool)
    (h : (sbuf_ensure_extra sb extra ok).1 = false) :
    (sbuf_ensure_extra sb extra ok).2 = sb := by
  by_cases hfit : sb.count + extra ≤ sb.buflen
  · rw [sbuf_ensure_extra, if_pos hfit] at h
    exact absurd h (by simp)
  · cases ok with
    | true =>
      rw [sbuf_ensure_extra, if_neg hfit, if_pos rfl] at h
      exact absurd h (by simp)
    | false =>
      rw [sbuf_ensure_extra, if_neg hfit, if_neg (by simp)]

/-- After a successful sbuf_ensure_extra: the invariant holds, the length
is unchanged, the capacity accommodates `extra` more bytes, and the
content bytes are untouched. -/
lemma ensure_extra_true_spec (sb : stringbuf_t) (extra : Nat) (ok : Bool)
    (hinv : sbuf_inv sb) (h : (sbuf_ensure_extra sb extra ok).1 = true) :
    sbuf_inv (sbuf_ensure_extra sb extra ok).2 ∧
    (sbuf_ensure_extra sb extra ok).2.count = sb.count ∧
    sb.count + extra ≤ (sbuf_ensure_extra sb extra ok).2.buflen ∧
    (sbuf_ensure_extra sb extra ok).2.buf.take sb.count = sb.buf.take sb.count := by
  obtain ⟨hlen, hcnt, hsent⟩ := hinv
  by_cases hfit : sb.count + extra ≤ sb.buflen
  · rw [sbuf_ensure_extra, if_pos hfit]
    exact ⟨⟨hlen, hcnt, hsent⟩, rfl, hfit, rfl⟩
  · cases ok with
    | false =>
      rw [sbuf_ensure_extra, if_neg hfit, if_neg (by simp)] at h
      exact absurd h (by simp)
    | true =>
      rw [sbuf_ensure_extra, if_neg hfit, if_pos rfl]
      have hnew := ensureNewlen_ge sb extra
      have hgrow : sb.buf.length ≤ ensureNewlen sb extra + 1 := by omega
      have htk : sb.buf.take (ensureNewlen sb extra + 1) = sb.buf :=
        List.take_of_length_le (by omega)
      have hglen : (sb.buf.take (ensureNewlen sb extra + 1) ++
          List.replicate (ensureNewlen sb extra + 1 - sb.buf.length) 0).length =
          ensureNewlen sb extra + 1 := by
        rw [List.length_append, List.length_replicate, htk]
        omega
      refine ⟨⟨?_, ?_, ?_⟩, rfl, ?_, ?_⟩
      all_goals dsimp only
      · simp only [List.length_set]
        exact hglen
      · omega
      · by_cases hc : sb.count = ensureNewlen sb extra
        · rw [← hc]
          exact getD_set_eq _ _ _ (by simp only [List.length_set, hglen]; omega)
        · rw [getD_set_ne _ _ _ _ (fun hx => hc hx.symm)]
          exact getD_set_eq _ _ _ (by simp only [List.length_set, hglen]; omega)
      · omega
      · rw [take_set_le _ _ _ _ (by omega), take_set_le _ _ _ _ (by omega)]
        rw [List.take_append_of_le_length (by rw [htk]; omega), htk]

lemma append_take_len (l1 l2 : List Nat) (k : Nat) (h : k = l1.length) :
    (l1 ++ l2).take k = l1 := by
  subst h
  exact List.take_left l1 l2

lemma append_drop_len (l1 l2 : List Nat) (k : Nat) (h : k = l1.length) :
    (l1 ++ l2).drop k = l2 := by
  subst h
  exact List.drop_left l1 l2

/-! ### Mutation-operation specifications -/

lemma insert_at_n_spec (sb : stringbuf_t) (s : List Nat) (n : Int) (p : Nat) (ok : Bool)
    (hinv : sbuf_inv sb) (hp : p ≤ sb.count)
    (hok : (sbuf_ensure_extra sb (str_limit_to_length s n) ok).1 = true) :
    (sbuf_insert_at_n sb s n (p : Int) ok).2 = (p : Int) + str_limit_to_length s n ∧
    (sbuf_insert_at_n sb s n (p : Int) ok).1.count = sb.count + str_limit_to_length s n ∧
    sbuf_inv (sbuf_insert_at_n sb s n (p : Int) ok).1 ∧
    sbuf_content (sbuf_insert_at_n sb s n (p : Int) ok).1 =
      (sbuf_content sb).take p ++ s.take (str_limit_to_length s n) ++
        (sbuf_content sb).drop p := by
  have hguard : ¬((p : Int) < 0 ∨ (sb.count : Int) < (p : Int)) := by omega
  set m := str_limit_to_length s n with hmdef
  by_cases hm : m = 0
  · rw [sbuf_insert_at_n, if_neg hguard]
    rw [← hmdef, if_pos hm, hm]
    refine ⟨by simp, by simp, hinv, ?_⟩
    show sbuf_content sb = (sbuf_content sb).take p ++ List.take 0 s ++ (sbuf_content sb).drop p
    simp
  · obtain ⟨hinv1, hcnt1, hcap1, htake1⟩ := ensure_extra_true_spec sb m ok hinv hok
    rw [sbuf_insert_at_n, if_neg hguard, ← hmdef, if_neg hm, if_pos hok]
    set sb1 := (sbuf_ensure_extra sb m ok).2 with hsb1
    obtain ⟨hlen1, hle1, hsent1⟩ := hinv1
    rw [Int.toNat_natCast]
    dsimp only
    rw [hcnt1]
    have hml : m ≤ s.length := str_limit_le_length s n
    have hBL : sb.count + m ≤ sb1.buf.length - 1 := by omega
    have hBL2 : sb1.buf.length = sb1.buflen + 1 := hlen1
    have hSlen : (s.take m).length = m := by simp; omega
    have hMlen : ((sb1.buf.drop p).take (sb.count - p)).length = sb.count - p := by
      simp
      omega
    have h1 : listWrite sb1.buf (p + m) ((sb1.buf.drop p).take (sb.count - p)) =
        sb1.buf.take (p + m) ++ (sb1.buf.drop p).take (sb.count - p) ++
          sb1.buf.drop (sb.count + m) := by
      rw [listWrite, hMlen, show p + m + (sb.count - p) = sb.count + m from by omega]
    have h2 : listWrite (listWrite sb1.buf (p + m) ((sb1.buf.drop p).take (sb.count - p)))
        p (s.take m) =
        (sb1.buf.take p ++ s.take m ++ (sb1.buf.drop p).take (sb.count - p)) ++
          sb1.buf.drop (sb.count + m) := by
      rw [listWrite, hSlen, h1]
      rw [List.append_assoc (sb1.buf.take (p + m))]
      rw [List.take_append_of_le_length (by simp; omega), List.take_take,
        show min p (p + m) = p from by omega]
      rw [append_drop_len (sb1.buf.take (p + m)) _ (p + m) (by simp; omega)]
      simp [List.append_assoc]
    have h2len : (listWrite (listWrite sb1.buf (p + m) ((sb1.buf.drop p).take (sb.count - p)))
        p (s.take m)).length = sb1.buf.length := by
      rw [h2]
      simp [hSlen, hMlen]
      omega
    have hcB : sb1.buf.take sb.count = sbuf_content sb := htake1
    have hBp : sb1.buf.take p = (sbuf_content sb).take p := by
      rw [← hcB, List.take_take, show min p sb.count = p from by omega]
    have hMc : (sb1.buf.drop p).take (sb.count - p) = (sbuf_content sb).drop p := by
      rw [← hcB, List.drop_take]
    refine ⟨rfl, rfl, ⟨?_, ?_, ?_⟩, ?_⟩
    all_goals dsimp only
    · rw [List.length_set, h2len, hBL2]
    · omega
    · exact getD_set_eq _ _ _ (by rw [h2len]; omega)
    · show (_ : List Nat).take (sb.count + m) = _
      rw [take_set_le _ _ _ _ (le_refl _), h2]
      rw [append_take_len _ _ _ (by simp [hSlen, hMlen]; omega)]
      rw [hBp, hMc]



lemma delClamp_le (sb : stringbuf_t) (p c : Nat) (hp : p < sb.count) :
    p + delClamp sb p c ≤ sb.count ∧ delClamp sb p c ≤ c := by
  rw [delClamp]
  split <;> omega

lemma delClamp_eq (sb : stringbuf_t) (p c : Nat) (h : p + c ≤ sb.count) :
    delClamp sb p c = c := by
  rw [delClamp, if_neg (by omega)]

/-- Full specification of a deletion at an in-range position: the length
shrinks by the clamped span and the content loses exactly the bytes
[pos, pos + clamped span). -/
lemma delete_at_spec (sb : stringbuf_t) (p : Nat) (c : Nat)
    (hinv : sbuf_inv sb) (hp : p < sb.count) :
    sbuf_inv (sbuf_delete_at sb (p : Int) c) ∧
    (sbuf_delete_at sb (p : Int) c).count = sb.count - delClamp sb p c ∧
    sbuf_content (sbuf_delete_at sb (p : Int) c) =
      (sbuf_content sb).take p ++ (sbuf_content sb).drop (p + delClamp sb p c) := by
  obtain ⟨hlen, hle, hsent⟩ := hinv
  obtain ⟨hcl1, hcl2⟩ := delClamp_le sb p c hp
  have hguard : ¬((p : Int) < 0 ∨ (sb.count : Int) ≤ (p : Int)) := by omega
  rw [sbuf_delete_at, if_neg hguard, Int.toNat_natCast]
  set cl := delClamp sb p c with hcl
  have hTlen : ((sb.buf.drop (p + cl)).take (sb.count - p - cl)).length = sb.count - p - cl := by
    simp
    omega
  have h1 : listWrite sb.buf p ((sb.buf.drop (p + cl)).take (sb.count - p - cl)) =
      (sb.buf.take p ++ (sb.buf.drop (p + cl)).take (sb.count - p - cl)) ++
        sb.buf.drop (sb.count - cl) := by
    rw [listWrite, hTlen, show p + (sb.count - p - cl) = sb.count - cl from by omega,
      List.append_assoc]
  have h1len : (listWrite sb.buf p ((sb.buf.drop (p + cl)).take (sb.count - p - cl))).length =
      sb.buf.length := by
    rw [h1]
    simp [hTlen]
    omega
  refine ⟨⟨?_, ?_, ?_⟩, rfl, ?_⟩
  all_goals dsimp only
  · rw [List.length_set, h1len, hlen]
  · omega
  · exact getD_set_eq _ _ _ (by rw [h1len]; omega)
  · show (_ : List Nat).take (sb.count - cl) = _
    rw [take_set_le _ _ _ _ (le_refl _), h1]
    rw [append_take_len _ _ _ (by simp [hTlen]; omega)]
    have hBp : sb.buf.take p = (sbuf_content sb).take p := by
      rw [sbuf_content, List.take_take, show min p sb.count = p from by omega]
    have hT : (sb.buf.drop (p + cl)).take (sb.count - p - cl) =
        (sbuf_content sb).drop (p + cl) := by
      rw [sbuf_content, List.drop_take, show sb.count - (p + cl) = sb.count - p - cl from by omega]
    rw [hBp, hT]

/-- sbuf_delete_at is a no-op outside [0, count). -/
lemma delete_at_oob (sb : stringbuf_t) (pos : Int) (c : Nat)
    (h : pos < 0 ∨ (sb.count : Int) ≤ pos) : sbuf_delete_at sb pos c = sb := by
  rw [sbuf_delete_at, if_pos h]



/-- Insertion with a failed reallocation (or out-of-range position, or an
empty clamped source) leaves the buffer and the position untouched. -/
lemma insert_at_n_noop (sb : stringbuf_t) (s : List Nat) (n : Int) (pos : Int) (ok : Bool)
    (hok : (sbuf_ensure_extra sb (str_limit_to_length s n) ok).1 = false) :
    sbuf_insert_at_n sb s n pos ok = (sb, pos) := by
  by_cases hguard : pos < 0 ∨ (sb.count : Int) < pos
  · rw [sbuf_insert_at_n, if_pos hguard]
  · by_cases hm : str_limit_to_length s n = 0
    · rw [sbuf_insert_at_n, if_neg hguard, if_pos hm]
    · rw [sbuf_insert_at_n, if_neg hguard, if_neg hm, if_neg (by simp [hok]),
        ensure_extra_false_eq _ _ _ hok]

/-- The invariant is preserved by sbuf_insert_at_n for every position and
every allocation outcome. -/
lemma insert_at_n_inv (sb : stringbuf_t) (s : List Nat) (n : Int) (pos : Int) (ok : Bool)
    (hinv : sbuf_inv sb) : sbuf_inv (sbuf_insert_at_n sb s n pos ok).1 := by
  by_cases hguard : pos < 0 ∨ (sb.count : Int) < pos
  · rw [sbuf_insert_at_n, if_pos hguard]
    exact hinv
  · by_cases hok : (sbuf_ensure_extra sb (str_limit_to_length s n) ok).1 = true
    · have hp : pos = ((pos.toNat : Nat) : Int) := by omega
      rw [hp]
      exact (insert_at_n_spec sb s n pos.toNat ok hinv (by omega) hok).2.2.1
    · rw [insert_at_n_noop sb s n pos ok (by simpa using hok)]
      exact hinv

/-- The invariant is preserved by sbuf_delete_at for every position. -/
lemma delete_at_inv (sb : stringbuf_t) (pos : Int) (c : Nat) (hinv : sbuf_inv sb) :
    sbuf_inv (sbuf_delete_at sb pos c) := by
  by_cases h : pos < 0 ∨ (sb.count : Int) ≤ pos
  · rw [delete_at_oob sb pos c h]
    exact hinv
  · have hp : pos = ((pos.toNat : Nat) : Int) := by omega
    rw [hp]
    exact (delete_at_spec sb pos.toNat c hinv (by omega)).1

/-- The formatted in-place write preserves the invariant and credits at
most the available space. -/
lemma vprintfWrite_inv (sb1 : stringbuf_t) (out : List Nat) (hinv1 : sbuf_inv sb1) :
    sbuf_inv (vprintfWrite sb1 out) ∧
    (vprintfWrite sb1 out).count = sb1.count + min out.length (sb1.buflen - sb1.count) := by
  obtain ⟨hlen, hle, hsent⟩ := hinv1
  rw [vprintfWrite]
  by_cases hav : sb1.buflen - sb1.count = 0
  · rw [if_pos hav]
    refine ⟨⟨?_, ?_, ?_⟩, ?_⟩
    all_goals dsimp only
    · simp [hlen]
    · omega
    · exact getD_set_eq _ _ _ (by omega)
    · omega
  · rw [if_neg hav]
    have hwlen : (out.take (min out.length (sb1.buflen - sb1.count - 1))).length =
        min out.length (sb1.buflen - sb1.count - 1) := by
      simp
    have hlw : (listWrite sb1.buf sb1.count
        (out.take (min out.length (sb1.buflen - sb1.count - 1)))).length = sb1.buf.length := by
      rw [listWrite_length]
      rw [hwlen]
      omega
    refine ⟨⟨?_, ?_, ?_⟩, ?_⟩
    all_goals dsimp only
    · simp only [List.length_set, hlw, hlen]
    · omega
    · exact getD_set_eq _ _ _ (by simp only [List.length_set, hlw]; omega)

/-- The invariant is preserved by sbuf_append_vprintf for every requested
size and allocation outcome. -/
lemma append_vprintf_inv (sb : stringbuf_t) (mx : Nat) (out : List Nat) (ok : Bool)
    (hinv : sbuf_inv sb) : sbuf_inv (sbuf_append_vprintf sb mx out ok).1 := by
  by_cases hok : (sbuf_ensure_extra sb mx ok).1 = true
  · rw [sbuf_append_vprintf, if_pos hok]
    exact (vprintfWrite_inv _ out (ensure_extra_true_spec sb mx ok hinv hok).1).1
  · rw [sbuf_append_vprintf, if_neg hok, ensure_extra_false_eq _ _ _ (by simpa using hok)]
    exact hinv



lemma append_take_len_add (l1 l2 : List Nat) (k i : Nat) (h : k = l1.length) :
    (l1 ++ l2).take (k + i) = l1 ++ l2.take i := by
  subst h
  exact List.take_append i

lemma append_drop_len_add (l1 l2 : List Nat) (k i : Nat) (h : k = l1.length) :
    (l1 ++ l2).drop (k + i) = l2.drop i := by
  subst h
  exact List.drop_append i

/-- sbuf_swap_char refuses the operation whenever the forward unit is
missing, the backward unit is missing, or the backward unit would not fit
the 64-byte scratch buffer. -/
lemma swap_char_refuse (sb : stringbuf_t) (pos : Nat)
    (h : sbuf_next_ofs sb pos = 0 ∨ sbuf_prev_ofs sb pos = 0 ∨ 63 ≤ sbuf_prev_ofs sb pos) :
    sbuf_swap_char sb pos = (sb, 0) := by
  by_cases h1 : sbuf_next_ofs sb pos = 0
  · rw [sbuf_swap_char, if_pos h1]
  · by_cases h2 : sbuf_prev_ofs sb pos = 0
    · rw [sbuf_swap_char, if_neg h1, if_pos h2]
    · have h3 : 63 ≤ sbuf_prev_ofs sb pos := by
        rcases h with h | h | h
        · exact absurd h h1
        · exact absurd h h2
        · exact h
      rw [sbuf_swap_char, if_neg h1, if_neg h2, if_pos h3]

/-- Full specification of an accepted sbuf_swap_char: the two adjacent
display units are exchanged inside the content, everything else is kept,
and the new position of the relocated unit is returned. -/
lemma swap_char_spec (sb : stringbuf_t) (pos : Nat) (hinv : sbuf_inv sb)
    (hnext : sbuf_next_ofs sb pos ≠ 0) (hprev : sbuf_prev_ofs sb pos ≠ 0)
    (h63 : sbuf_prev_ofs sb pos < 63) :
    (sbuf_swap_char sb pos).2 = pos - sbuf_prev_ofs sb pos ∧
    (sbuf_swap_char sb pos).1.count = sb.count ∧
    sbuf_inv (sbuf_swap_char sb pos).1 ∧
    sbuf_content (sbuf_swap_char sb pos).1 =
      (sbuf_content sb).take (pos - sbuf_prev_ofs sb pos) ++
      ((sbuf_content sb).drop pos).take (sbuf_next_ofs sb pos) ++
      ((sbuf_content sb).drop (pos - sbuf_prev_ofs sb pos)).take (sbuf_prev_ofs sb pos) ++
      (sbuf_content sb).drop (pos + sbuf_next_ofs sb pos) := by
  obtain ⟨hlen, hle, hsent⟩ := hinv
  set next := sbuf_next_ofs sb pos with hnx
  set prev := sbuf_prev_ofs sb pos with hpv
  have hposlt : pos < sb.count := by
    by_contra hc
    exact hnext (by rw [hnx, sbuf_next_ofs, nextOfs, if_neg (by omega)])
  have hnle : pos + next ≤ sb.count := by
    have := nextOfs_le sb.buf sb.count pos
    rw [hnx, sbuf_next_ofs]
    omega
  have hple : prev ≤ pos := by
    rw [hpv, sbuf_prev_ofs]
    exact prevOfs_le sb.buf pos
  rw [sbuf_swap_char, if_neg hnext, if_neg hprev, if_neg (by omega)]
  rw [← hnx, ← hpv]
  have hNlen : ((sb.buf.drop pos).take next).length = next := by
    simp
    omega
  have hPlen : ((sb.buf.drop (pos - prev)).take prev).length = prev := by
    simp
    omega
  have hb1 : listWrite sb.buf (pos - prev) ((sb.buf.drop pos).take next) =
      (sb.buf.take (pos - prev) ++ (sb.buf.drop pos).take next) ++
        sb.buf.drop (pos - prev + next) := by
    rw [listWrite, hNlen, List.append_assoc]
  have hb1len : (listWrite sb.buf (pos - prev) ((sb.buf.drop pos).take next)).length =
      sb.buf.length := by
    rw [hb1]
    simp [hNlen]
    omega
  have hb2 : listWrite (listWrite sb.buf (pos - prev) ((sb.buf.drop pos).take next))
      (pos - prev + next) ((sb.buf.drop (pos - prev)).take prev) =
      (sb.buf.take (pos - prev) ++ (sb.buf.drop pos).take next ++
        (sb.buf.drop (pos - prev)).take prev) ++ sb.buf.drop (pos + next) := by
    rw [listWrite, hPlen, hb1]
    rw [append_take_len _ _ _ (by simp [hNlen]; omega)]
    rw [append_drop_len_add _ _ _ prev (by simp [hNlen]; omega), List.drop_drop]
    rw [show pos - prev + next + prev = pos + next from by omega]
  have hb2len : (listWrite (listWrite sb.buf (pos - prev) ((sb.buf.drop pos).take next))
      (pos - prev + next) ((sb.buf.drop (pos - prev)).take prev)).length = sb.buf.length := by
    rw [hb2]
    simp [hNlen, hPlen]
    omega
  refine ⟨rfl, rfl, ⟨?_, ?_, ?_⟩, ?_⟩
  all_goals dsimp only
  · rw [hb2len, hlen]
  · omega
  · rw [listWrite_getD_ge _ _ _ _ (by rw [hb1len]; omega) (by rw [hPlen]; omega)]
    rw [listWrite_getD_ge _ _ _ _ (by omega) (by rw [hNlen]; omega)]
    exact hsent
  · show (_ : List Nat).take sb.count = _
    rw [hb2]
    rw [show sb.count = (pos - prev + next + prev) + (sb.count - (pos + next)) from by omega]
    rw [append_take_len_add _ _ _ _ (by simp [hNlen, hPlen]; omega)]
    have hCq : sb.buf.take (pos - prev) = (sbuf_content sb).take (pos - prev) := by
      rw [sbuf_content, List.take_take, show min (pos - prev) sb.count = pos - prev from by omega]
    have hCN : (sb.buf.drop pos).take next = ((sbuf_content sb).drop pos).take next := by
      rw [sbuf_content, List.drop_take, List.take_take,
        show min next (sb.count - pos) = next from by omega]
    have hCP : (sb.buf.drop (pos - prev)).take prev =
        ((sbuf_content sb).drop (pos - prev)).take prev := by
      rw [sbuf_content, List.drop_take, List.take_take,
        show min prev (sb.count - (pos - prev)) = prev from by omega]
    have hCd : (sb.buf.drop (pos + next)).take (sb.count - (pos + next)) =
        (sbuf_content sb).drop (pos + next) := by
      rw [sbuf_content, List.drop_take]
    rw [hCq, hCN, hCP, hCd]

/-! ### Claim C2: the sentinel invariant survives every mutation -/

/-- C2: starting from any allocated buffer satisfying the invariant, every
mutation operation — sbuf_insert_at_n and its derived insert/append
variants, sbuf_append_vprintf, sbuf_delete_at and its derived delete
variants, sbuf_clear, and sbuf_swap_char — leaves a buffer in which the
byte at index `count` is 0 and `count` is at most the capacity, for every
position, source, requested size and allocation outcome. -/
theorem sbuf_mutations_preserve_invariant (sb : stringbuf_t) (hinv : sbuf_inv sb) :
    (∀ s n pos ok, sbuf_inv (sbuf_insert_at_n sb s n pos ok).1) ∧
    (∀ s pos ok, sbuf_inv (sbuf_insert_at sb s pos ok).1) ∧
    (∀ c pos ok, sbuf_inv (sbuf_insert_char_at sb c pos ok).1) ∧
    (∀ s n ok, sbuf_inv (sbuf_append_n sb s n ok).1) ∧
    (∀ s ok, sbuf_inv (sbuf_append sb s ok).1) ∧
    (∀ c ok, sbuf_inv (sbuf_append_char sb c ok).1) ∧
    (∀ mx out ok, sbuf_inv (sbuf_append_vprintf sb mx out ok).1) ∧
    (∀ pos c, sbuf_inv (sbuf_delete_at sb pos c)) ∧
    (∀ pos e, sbuf_inv (sbuf_delete_from_to sb pos e)) ∧
    (∀ pos, sbuf_inv (sbuf_delete_from sb pos)) ∧
    sbuf_inv (sbuf_clear sb) ∧
    (∀ pos, sbuf_inv (sbuf_swap_char sb pos).1) := by
  refine ⟨fun s n pos ok => insert_at_n_inv sb s n pos ok hinv,
    fun s pos ok => insert_at_n_inv sb s _ pos ok hinv,
    fun c pos ok => insert_at_n_inv sb [c, 0] 1 pos ok hinv,
    fun s n ok => insert_at_n_inv sb s n _ ok hinv,
    fun s ok => insert_at_n_inv sb s _ _ ok hinv,
    fun c ok => insert_at_n_inv sb [c, 0] _ _ ok hinv,
    fun mx out ok => append_vprintf_inv sb mx out ok hinv,
    fun pos c => delete_at_inv sb pos c hinv,
    fun pos e => ?_,
    fun pos => delete_at_inv sb pos _ hinv,
    delete_at_inv sb 0 _ hinv,
    fun pos => ?_⟩
  · rw [sbuf_delete_from_to]
    split
    · exact hinv
    · exact delete_at_inv sb pos _ hinv
  · by_cases h1 : sbuf_next_ofs sb pos = 0
    · rw [swap_char_refuse sb pos (Or.inl h1)]
      exact hinv
    · by_cases h2 : sbuf_prev_ofs sb pos = 0
      · rw [swap_char_refuse sb pos (Or.inr (Or.inl h2))]
        exact hinv
      · by_cases h3 : 63 ≤ sbuf_prev_ofs sb pos
        · rw [swap_char_refuse sb pos (Or.inr (Or.inr h3))]
          exact hinv
        · exact (swap_char_spec sb pos hinv h1 h2 (by omega)).2.2.1

/-- Witness for sbuf_mutations_preserve_invariant on concrete buffers:
an insertion that must grow storage and a deletion. -/
theorem sbuf_mutations_preserve_invariant_attests :
    sbuf_inv (sbuf_insert_at_n ⟨[0], 0, 0⟩ [65, 0] 1 0 true).1 ∧
    sbuf_inv (sbuf_delete_at ⟨[65, 0], 1, 1⟩ 0 1) :=
  ⟨(sbuf_mutations_preserve_invariant ⟨[0], 0, 0⟩ ⟨rfl, Nat.le_refl 0, rfl⟩).1 [65, 0] 1 0 true,
   (sbuf_mutations_preserve_invariant ⟨[65, 0], 1, 1⟩
      ⟨rfl, Nat.le_refl 1, rfl⟩).2.2.2.2.2.2.2.1 0 1⟩

/-! ### Claim C4: a failed reallocation makes the insert a no-op -/

/-- C4: when growth is needed (the capacity cannot fit the clamped
insertion) and the reallocation fails, sbuf_ensure_extra reports failure
with the buffer untouched, and sbuf_insert_at_n returns the buffer exactly
as it was — same bytes, length and capacity — together with the unchanged
position. -/
theorem insert_alloc_failure_noop (sb : stringbuf_t) (s : List Nat) (n : Int) (pos : Int)
    (hgrow : sb.buflen < sb.count + str_limit_to_length s n) :
    sbuf_ensure_extra sb (str_limit_to_length s n) false = (false, sb) ∧
    sbuf_insert_at_n sb s n pos false = (sb, pos) := by
  have h1 : sbuf_ensure_extra sb (str_limit_to_length s n) false = (false, sb) := by
    rw [sbuf_ensure_extra, if_neg (by omega), if_neg (by simp)]
  exact ⟨h1, insert_at_n_noop sb s n pos false (by rw [h1])⟩

/-- Witness for insert_alloc_failure_noop: inserting one byte into a
zero-capacity buffer with a failing allocator changes nothing. -/
theorem insert_alloc_failure_noop_attests :
    sbuf_insert_at_n ⟨[0], 0, 0⟩ [65, 0] 1 0 false = (⟨[0], 0, 0⟩, 0) :=
  (insert_alloc_failure_noop ⟨[0], 0, 0⟩ [65, 0] 1 0
    (by simp [str_limit_to_length, limitLoop])).2

/-! ### Claim C10: insertion clamps at an embedded 0 byte -/

/-- C10: sbuf_insert_at_n inserts exactly min(n, offset of the first 0
byte of the source): the bytes before the clamp are all nonzero and the
byte at the clamp offset is 0, the content gains exactly those bytes at
the position, and the returned position is pos plus the clamped length. -/
theorem insert_clamps_at_embedded_nul (sb : stringbuf_t) (s : List Nat) (n : Int) (p : Nat)
    (hinv : sbuf_inv sb) (hp : p ≤ sb.count) (hn : 0 ≤ n) :
    str_limit_to_length s n = min n.toNat (rp_strlen s) ∧
    (∀ j, j < rp_strlen s → s.getD j 0 ≠ 0) ∧ s.getD (rp_strlen s) 0 = 0 ∧
    (sbuf_insert_at_n sb s n (p : Int) true).2 = (p : Int) + min n.toNat (rp_strlen s) ∧
    sbuf_content (sbuf_insert_at_n sb s n (p : Int) true).1 =
      (sbuf_content sb).take p ++ s.take (min n.toNat (rp_strlen s)) ++
        (sbuf_content sb).drop p := by
  have hmin := str_limit_eq_min s n hn
  have hspec := insert_at_n_spec sb s n p true hinv hp
    (ensure_extra_of_true sb (str_limit_to_length s n))
  refine ⟨hmin, (rp_strlen_spec s).1, (rp_strlen_spec s).2, ?_, ?_⟩
  · rw [← hmin]
    exact hspec.1
  · rw [← hmin]
    exact hspec.2.2.2

/-- Witness for insert_clamps_at_embedded_nul: inserting 3 requested bytes
of a source with an embedded 0 after one byte inserts only that byte. -/
theorem insert_clamps_at_embedded_nul_attests :
    str_limit_to_length [65, 0, 66] 3 = min (3 : Int).toNat (rp_strlen [65, 0, 66]) ∧
    (∀ j, j < rp_strlen [65, 0, 66] → List.getD [65, 0, 66] j 0 ≠ 0) ∧
    List.getD [65, 0, 66] (rp_strlen [65, 0, 66]) 0 = 0 ∧
    (sbuf_insert_at_n ⟨[0], 0, 0⟩ [65, 0, 66] 3 ((0 : Nat) : Int) true).2 =
      ((0 : Nat) : Int) + min (3 : Int).toNat (rp_strlen [65, 0, 66]) ∧
    sbuf_content (sbuf_insert_at_n ⟨[0], 0, 0⟩ [65, 0, 66] 3 ((0 : Nat) : Int) true).1 =
      (sbuf_content ⟨[0], 0, 0⟩).take 0 ++ [65, 0, 66].take (min (3 : Int).toNat (rp_strlen [65, 0, 66])) ++
        (sbuf_content ⟨[0], 0, 0⟩).drop 0 :=
  insert_clamps_at_embedded_nul ⟨[0], 0, 0⟩ [65, 0, 66] 3 0
    ⟨rfl, Nat.le_refl 0, rfl⟩ (Nat.le_refl 0) (by omega)

/-! ### Claim C9: the swap refusal bound applies to one side only -/

/-- C9 counterexample: in a buffer holding the letter a followed by a
64-byte CSI escape sequence, the unit starting at position 1 needs 64 > 63
bytes, yet sbuf_swap_char at position 1 is not refused: the content
changes.  Only the unit ending at the position (relocated through the
64-byte scratch buffer) is bounded. -/
theorem swap_char_cex :
    63 < sbuf_next_ofs ⟨97 :: 27 :: 91 :: (List.replicate 61 48 ++ [109, 0]), 65, 65⟩ 1 ∧
    sbuf_content (sbuf_swap_char ⟨97 :: 27 :: 91 :: (List.replicate 61 48 ++ [109, 0]), 65, 65⟩ 1).1 ≠
      sbuf_content ⟨97 :: 27 :: 91 :: (List.replicate 61 48 ++ [109, 0]), 65, 65⟩ := by
  constructor
  · simp [sbuf_next_ofs, nextOfs, skip_csi_esc, skipCsiLoop, List.replicate]
  · simp [sbuf_swap_char, sbuf_next_ofs, sbuf_prev_ofs, nextOfs, prevOfs, prevOfsLoop,
      skip_csi_esc, skipCsiLoop, isFollower, listWrite, sbuf_content, List.replicate]


/-- C9 (amended): sbuf_swap_char is refused (buffer unchanged, result 0)
exactly when a unit is missing on either side or the unit ending at `pos`
— the one relocated through the fixed 64-byte scratch buffer — is 63 bytes
or longer; the unit starting at `pos` is unbounded.  When accepted, the
operation exchanges exactly the display unit ending at `pos` with the one
starting at `pos` and returns the relocated unit's new position. -/
theorem swap_char_refusal_and_exchange :
    (∀ sb pos, sbuf_next_ofs sb pos = 0 ∨ sbuf_prev_ofs sb pos = 0 ∨
        63 ≤ sbuf_prev_ofs sb pos → sbuf_swap_char sb pos = (sb, 0)) ∧
    (∀ sb pos, sbuf_inv sb → sbuf_next_ofs sb pos ≠ 0 → sbuf_prev_ofs sb pos ≠ 0 →
      sbuf_prev_ofs sb pos < 63 →
      (sbuf_swap_char sb pos).2 = pos - sbuf_prev_ofs sb pos ∧
      (sbuf_swap_char sb pos).1.count = sb.count ∧
      sbuf_content (sbuf_swap_char sb pos).1 =
        (sbuf_content sb).take (pos - sbuf_prev_ofs sb pos) ++
        ((sbuf_content sb).drop pos).take (sbuf_next_ofs sb pos) ++
        ((sbuf_content sb).drop (pos - sbuf_prev_ofs sb pos)).take (sbuf_prev_ofs sb pos) ++
        (sbuf_content sb).drop (pos + sbuf_next_ofs sb pos)) :=
  ⟨swap_char_refuse,
   fun sb pos hinv h1 h2 h3 =>
     ⟨(swap_char_spec sb pos hinv h1 h2 h3).1,
      (swap_char_spec sb pos hinv h1 h2 h3).2.1,
      (swap_char_spec sb pos hinv h1 h2 h3).2.2.2⟩⟩

/-- Witness for swap_char_refusal_and_exchange: a refusal on the empty
buffer and an accepted ascii swap. -/
theorem swap_char_refusal_and_exchange_attests :
    sbuf_swap_char ⟨[0], 0, 0⟩ 0 = (⟨[0], 0, 0⟩, 0) ∧
    ((sbuf_swap_char ⟨[97, 98, 0], 2, 2⟩ 1).2 =
        1 - sbuf_prev_ofs ⟨[97, 98, 0], 2, 2⟩ 1 ∧
      (sbuf_swap_char ⟨[97, 98, 0], 2, 2⟩ 1).1.count = 2 ∧
      sbuf_content (sbuf_swap_char ⟨[97, 98, 0], 2, 2⟩ 1).1 =
        (sbuf_content ⟨[97, 98, 0], 2, 2⟩).take (1 - sbuf_prev_ofs ⟨[97, 98, 0], 2, 2⟩ 1) ++
        ((sbuf_content ⟨[97, 98, 0], 2, 2⟩).drop 1).take (sbuf_next_ofs ⟨[97, 98, 0], 2, 2⟩ 1) ++
        ((sbuf_content ⟨[97, 98, 0], 2, 2⟩).drop (1 - sbuf_prev_ofs ⟨[97, 98, 0], 2, 2⟩ 1)).take
          (sbuf_prev_ofs ⟨[97, 98, 0], 2, 2⟩ 1) ++
        (sbuf_content ⟨[97, 98, 0], 2, 2⟩).drop (1 + sbuf_next_ofs ⟨[97, 98, 0], 2, 2⟩ 1)) :=
  ⟨swap_char_refusal_and_exchange.1 ⟨[0], 0, 0⟩ 0
      (Or.inl (by simp [sbuf_next_ofs, nextOfs])),
   swap_char_refusal_and_exchange.2 ⟨[97, 98, 0], 2, 2⟩ 1 ⟨rfl, Nat.le_refl 2, rfl⟩
      (by simp [sbuf_next_ofs, nextOfs, skip_csi_esc, nextOfsLoop, isFollower])
      (by simp [sbuf_prev_ofs, prevOfs, prevOfsLoop, isFollower])
      (by simp [sbuf_prev_ofs, prevOfs, prevOfsLoop, isFollower])⟩

end Stringbuf
namespace Stringbuf

/-! helpers -/

lemma getD_take_lt (l : List Nat) (m k : Nat) (h : k < m) :
    (l.take m).getD k 0 = l.getD k 0 := by
  simp [List.getD_eq_getElem?_getD, List.getElem?_take, h]

lemma getD_append_lt (l1 l2 : List Nat) (i : Nat) (h : i < l1.length) :
    (l1 ++ l2).getD i 0 = l1.getD i 0 := by
  simp [List.getD_eq_getElem?_getD, List.getElem?_append_left h]

lemma getD_append_add (l1 l2 : List Nat) (i : Nat) :
    (l1 ++ l2).getD (l1.length + i) 0 = l2.getD i 0 := by
  rw [List.getD_eq_getElem?_getD, List.getElem?_append_right (by omega),
    Nat.add_sub_cancel_left, ← List.getD_eq_getElem?_getD]

lemma content_length (sb : stringbuf_t) (hinv : sbuf_inv sb) :
    (sbuf_content sb).length = sb.count := by
  obtain ⟨hlen, hle, _⟩ := hinv
  rw [sbuf_content]
  simp
  omega

lemma buf_getD_content (sb : stringbuf_t) (k : Nat) (hk : k < sb.count) :
    sb.buf.getD k 0 = (sbuf_content sb).getD k 0 :=
  (getD_take_lt sb.buf sb.count k hk).symm

/-! well-formed codepoints -/

lemma isCp_facts (c : List Nat) (h : isCp c = true) :
    1 ≤ c.length ∧ isFollower (c.getD 0 0) = false ∧
    (∀ j, 1 ≤ j → j < c.length → isFollower (c.getD j 0) = true) := by
  cases c with
  | nil => simp [isCp] at h
  | cons b rest =>
    cases rest with
    | nil =>
      have hb : b < 0x80 := by simpa [isCp] using h
      refine ⟨by simp, ?_, ?_⟩
      · show isFollower b = false
        simp [isFollower]
        omega
      · intro j h1 h2
        simp at h2
        omega
    | cons b2 rest2 =>
      simp only [isCp, Bool.and_eq_true, Bool.or_eq_true, decide_eq_true_eq,
        beq_iff_eq] at h
      obtain ⟨hlead, hall⟩ := h
      refine ⟨by simp, ?_, ?_⟩
      · have hb : 0xC2 ≤ b := by
          rcases hlead with (h3 | h3) | h3 <;> omega
        show isFollower b = false
        simp [isFollower]
        omega
      · intro j h1 h2
        cases j with
        | zero => omega
        | succ j2 =>
          rw [List.getD_cons_succ]
          have hj2 : j2 < (b2 :: rest2).length := by simp at h2 ⊢; omega
          rw [List.getD_eq_getElem _ 0 hj2]
          exact List.all_eq_true.mp hall _ (List.getElem_mem hj2)

lemma utf8cps_append (u v : List Nat) (hu : Utf8Cps u) (hv : Utf8Cps v) :
    Utf8Cps (u ++ v) := by
  induction hu with
  | nil => simpa using hv
  | cons c rest hc hrest ih =>
    rw [List.append_assoc]
    exact Utf8Cps.cons c (rest ++ v) hc ih

lemma utf8cps_head (v : List Nat) (hv : Utf8Cps v) (hne : v ≠ []) :
    isFollower (v.getD 0 0) = false := by
  cases hv with
  | nil => exact absurd rfl hne
  | cons c rest hc hrest =>
    obtain ⟨hc1, hc2, _⟩ := isCp_facts c hc
    rw [getD_append_lt c rest 0 (by omega)]
    exact hc2

/-! boundary scans over a codepoint decomposition -/

lemma nextOfsLoop_eq (s : List Nat) (len pos t : Nat) (ht : pos + t ≤ len)
    (hf : ∀ j, 1 ≤ j → j < t → isFollower (s.getD (pos + j) 0) = true)
    (hstop : pos + t = len ∨ isFollower (s.getD (pos + t) 0) = false) :
    ∀ o, 1 ≤ o → o ≤ t → nextOfsLoop s len pos o = t := by
  intro o
  induction o using nextOfsLoop.induct s len pos with
  | case1 x hx hfx ih =>
    intro h1 h2
    rw [nextOfsLoop, dif_pos hx, if_pos hfx]
    rcases Nat.eq_or_lt_of_le h2 with rfl | h2
    · rcases hstop with h | h
      · omega
      · rw [h] at hfx
        exact absurd hfx (by simp)
    · exact ih (by omega) (by omega)
  | case2 x hx hfx =>
    intro h1 h2
    rcases Nat.eq_or_lt_of_le h2 with rfl | h2
    · rw [nextOfsLoop, dif_pos hx, if_neg hfx]
    · rw [hf x h1 h2] at hfx
      exact absurd rfl hfx
  | case3 x hx =>
    intro h1 h2
    rw [nextOfsLoop, dif_neg hx]
    omega

lemma prevOfs_at_boundary (sb : stringbuf_t) (u c w : List Nat) (hinv : sbuf_inv sb)
    (hcont : sbuf_content sb = u ++ c ++ w) (hc : isCp c = true) :
    prevOfs sb.buf (u.length + c.length) = c.length := by
  obtain ⟨hc1, hc2, hc3⟩ := isCp_facts c hc
  have hcl := content_length sb hinv
  have hlen_cnt : u.length + c.length + w.length = sb.count := by
    rw [← hcl, hcont]
    simp
    omega
  rw [prevOfs, if_pos (by omega)]
  apply prevOfsLoop_eq sb.buf (u.length + c.length) c.length (by omega) ?_ ?_ 1 le_rfl hc1
  · intro j h1 h2
    rw [show u.length + c.length - j = u.length + (c.length - j) from by omega,
      buf_getD_content sb _ (by omega), hcont, List.append_assoc, getD_append_add,
      getD_append_lt _ _ _ (by omega)]
    exact hc3 (c.length - j) (by omega) (by omega)
  · intro hlt
    rw [show u.length + c.length - c.length = u.length + 0 from by omega,
      buf_getD_content sb _ (by omega), hcont, List.append_assoc, getD_append_add,
      getD_append_lt _ _ _ (by omega)]
    exact hc2

lemma nextOfs_at_boundary (sb : stringbuf_t) (u c w : List Nat) (hinv : sbuf_inv sb)
    (hcont : sbuf_content sb = u ++ c ++ w) (hc : isCp c = true)
    (hw : Utf8Cps w) (hesc : ∀ b ∈ sbuf_content sb, b ≠ 27) :
    nextOfs sb.buf sb.count u.length = c.length := by
  obtain ⟨hc1, hc2, hc3⟩ := isCp_facts c hc
  have hcl := content_length sb hinv
  have hlen_cnt : u.length + c.length + w.length = sb.count := by
    rw [← hcl, hcont]
    simp
    omega
  have h27 : sb.buf.getD u.length 0 ≠ 27 := by
    rw [buf_getD_content sb _ (by omega),
      List.getD_eq_getElem _ 0 (by rw [hcl]; omega)]
    exact hesc _ (List.getElem_mem (by rw [hcl]; omega))
  rw [nextOfs_eq_loop sb.buf sb.count u.length (by omega) h27]
  apply nextOfsLoop_eq sb.buf sb.count u.length c.length (by omega) ?_ ?_ 1 le_rfl hc1
  · intro j h1 h2
    rw [buf_getD_content sb _ (by omega), hcont, List.append_assoc, getD_append_add,
      getD_append_lt _ _ _ (by omega)]
    exact hc3 j h1 h2
  · by_cases hwnil : w = []
    · left
      subst hwnil
      simp at hlen_cnt
      omega
    · right
      have hwlen : 1 ≤ w.length := by
        cases w with
        | nil => exact absurd rfl hwnil
        | cons a t => simp
      rw [buf_getD_content sb _ (by omega), hcont, List.append_assoc, getD_append_add,
        ← Nat.add_zero c.length, getD_append_add]
      exact utf8cps_head w hw hwnil

/-- C8 counterexample: on the buffer holding the complete ANSI escape
sequence ESC [ 3 1 m, sbuf_delete_char_before at the end position deletes
only the final byte m (the backward scan does not recognize escapes),
leaving the partial escape ESC [ 3 1 where a complete escape stood. -/
theorem delete_splits_escape_cex :
    sbuf_inv ⟨[27, 91, 51, 49, 109, 0], 5, 5⟩ ∧
    skip_csi_esc (sbuf_content ⟨[27, 91, 51, 49, 109, 0], 5, 5⟩) 5 = some 5 ∧
    sbuf_content (sbuf_delete_char_before ⟨[27, 91, 51, 49, 109, 0], 5, 5⟩ 5).1 =
      [27, 91, 51, 49] ∧
    skip_csi_esc [27, 91, 51, 49] 4 = none := by
  refine ⟨by decide, ?_, ?_, ?_⟩
  · simp [sbuf_content, skip_csi_esc, skipCsiLoop]
  · simp [sbuf_delete_char_before, sbuf_prev_ofs, prevOfs, prevOfsLoop, isFollower,
      sbuf_delete_at, delClamp, listWrite, sbuf_content]
  · simp [skip_csi_esc, skipCsiLoop]

/-- C8 (amended): on escape-free content decomposed as well-formed UTF-8
codepoints u ++ c ++ w, sbuf_delete_char_before at the right edge of c and
sbuf_delete_char_at at its left edge each delete exactly the byte span of c,
leaving the still well-formed content u ++ w; delete_char_before also
returns the new position u.length. -/
theorem delete_unit_exact_and_no_split (sb : stringbuf_t) (u c w : List Nat)
    (hinv : sbuf_inv sb) (hcont : sbuf_content sb = u ++ c ++ w)
    (hc : isCp c = true) (hu : Utf8Cps u) (hw : Utf8Cps w)
    (hesc : ∀ b ∈ sbuf_content sb, b ≠ 27) :
    (sbuf_delete_char_before sb (u.length + c.length)).2 = u.length ∧
    sbuf_content (sbuf_delete_char_before sb (u.length + c.length)).1 = u ++ w ∧
    sbuf_content (sbuf_delete_char_at sb u.length) = u ++ w ∧
    Utf8Cps (u ++ w) := by
  obtain ⟨hc1, hc2, hc3⟩ := isCp_facts c hc
  have hcl := content_length sb hinv
  have hlen_cnt : u.length + c.length + w.length = sb.count := by
    rw [← hcl, hcont]
    simp
    omega
  have hprev : sbuf_prev_ofs sb (u.length + c.length) = c.length := by
    rw [sbuf_prev_ofs]
    exact prevOfs_at_boundary sb u c w hinv hcont hc
  have hnext : sbuf_next_ofs sb u.length = c.length := by
    rw [sbuf_next_ofs]
    exact nextOfs_at_boundary sb u c w hinv hcont hc hw hesc
  have hclamp : delClamp sb u.length c.length = c.length :=
    delClamp_eq sb u.length c.length (by omega)
  have hspec := delete_at_spec sb u.length c.length hinv (by omega)
  have hcontent : sbuf_content (sbuf_delete_at sb (u.length : Int) c.length) = u ++ w := by
    rw [hspec.2.2, hclamp, hcont, List.append_assoc,
      append_take_len u (c ++ w) u.length rfl,
      ← List.append_assoc,
      append_drop_len (u ++ c) w (u.length + c.length) (by simp)]
  refine ⟨?_, ?_, ?_, utf8cps_append u w hu hw⟩
  · rw [sbuf_delete_char_before, if_neg (by omega)]
    simp only [hprev]
    omega
  · rw [sbuf_delete_char_before, if_neg (by omega)]
    simp only [hprev]
    have hcast : ((u.length + c.length : Nat) : Int) - ((c.length : Nat) : Int) =
        ((u.length : Nat) : Int) := by push_cast; omega
    rw [hcast]
    exact hcontent
  · rw [sbuf_delete_char_at, hnext, if_neg (by omega)]
    exact hcontent

/-- Witness for the amended C8 on the content A é (0x41, 0xC3 0xA9): deleting
the codepoint é either backward from position 3 or forward at position 1
leaves exactly [65]. -/
theorem delete_unit_exact_and_no_split_attests :
    sbuf_content ⟨[65, 195, 169, 0], 3, 3⟩ = [65] ++ [195, 169] ++ [] ∧
    ((sbuf_delete_char_before ⟨[65, 195, 169, 0], 3, 3⟩ 3).2 = 1 ∧
     sbuf_content (sbuf_delete_char_before ⟨[65, 195, 169, 0], 3, 3⟩ 3).1 = [65] ++ [] ∧
     sbuf_content (sbuf_delete_char_at ⟨[65, 195, 169, 0], 3, 3⟩ 1) = [65] ++ [] ∧
     Utf8Cps ([65] ++ [])) :=
  ⟨rfl,
    delete_unit_exact_and_no_split ⟨[65, 195, 169, 0], 3, 3⟩ [65] [195, 169] []
      (by decide) rfl (by decide)
      (Utf8Cps.cons [65] [] (by decide) Utf8Cps.nil)
      Utf8Cps.nil (by decide)⟩

end Stringbuf
